import Mathlib

set_option autoImplicit false
set_option maxHeartbeats 1000000

/-! Shallow embedding of the tract graph analyser (`src/analyser/mod.rs`) and a
verification of the specification claims about it.  Types that the analyser
imports from a submodule that is not part of the sources (`types.rs`: the fact
lattice data types, `Model`, `Node`, `Plan`) are modelled from the spec; the
functions of `mod.rs` are translated directly from the Rust source. -/

/-- Modelled from the spec: the closed set of primitive tensor element types
(defined in the missing `types` submodule; only equality is used). -/
inductive DataType where
  | f16 | f32 | f64
  | i8 | i16 | i32 | i64
  | u8 | u16 | u32 | u64
  | bool | string
  deriving DecidableEq

/-- Modelled from the spec: an opaque constant tensor value; the analyser only
ever compares such values byte-for-byte, so the payload is abstract data. -/
structure Tensor where
  data : List Nat
  deriving DecidableEq

/-- Modelled from the spec: a datum type fact, `Any` (top) or `Only t`. -/
inductive TypeFact where
  | Any : TypeFact
  | Only : DataType → TypeFact
  deriving DecidableEq

/-- Modelled from the spec: a dimension fact, `Any` or `Only n`. -/
inductive DimFact where
  | Any : DimFact
  | Only : Nat → DimFact
  deriving DecidableEq

/-- Modelled from the spec: a value fact, `Any` or `Only v`. -/
inductive ValueFact where
  | Any : ValueFact
  | Only : Tensor → ValueFact
  deriving DecidableEq

/-- Modelled from the spec: a shape fact is an ordered list of dimension facts
together with an open/closed flag (the source field is called `open`, which is
a Lean keyword, hence `isOpen`). -/
structure ShapeFact where
  isOpen : Bool
  dims : List DimFact
  deriving DecidableEq

/-- The `ShapeFact::open` constructor of the source. -/
def ShapeFact.opened (dims : List DimFact) : ShapeFact := ⟨true, dims⟩

/-- The `ShapeFact::closed` constructor of the source. -/
def ShapeFact.closed (dims : List DimFact) : ShapeFact := ⟨false, dims⟩

/-- Modelled from the spec: a tensor fact is the triple of a datum type fact,
a shape fact and a value fact. -/
structure TensorFact where
  datatype : TypeFact
  shape : ShapeFact
  value : ValueFact
  deriving DecidableEq

/-- Modelled from the spec: `TensorFact::new` is the top element (complete
ignorance: any type, unknown rank, any value). -/
def TensorFact.new : TensorFact :=
  { datatype := .Any, shape := ⟨true, []⟩, value := .Any }

/-- Attempts to unify two datatype facts (`unify_datatype` in the source;
errors are modelled by `none`). -/
def unify_datatype (x y : TypeFact) : Option TypeFact :=
  match x, y with
  | _, .Any => some x
  | .Any, _ => some y
  | .Only a, .Only b => if a = b then some x else none

/-- One element of the `zip_longest` match in the source `unify_shape`: the
`Both` cases (`Both(a, Any) | Both(Any, a) => a`, equal dims unify, anything
else is an error). -/
def unify_dim (a b : DimFact) : Option DimFact :=
  match a, b with
  | a, .Any => some a
  | .Any, b => some b
  | .Only a, .Only b => if a = b then some (.Only a) else none

/-- The run of `Left(d)`/`Right(d)` cases at the end of the `zip_longest` loop
in the source `unify_shape`: once one dimension list is exhausted, each
leftover dimension of the other list survives if the exhausted shape is open
(`other` is its open flag), and otherwise closed shapes of different rank are
an error. -/
def unify_tail (other : Bool) : List DimFact → Option (List DimFact)
  | [] => some []
  | d :: rest => if other then (unify_tail other rest).map (d :: ·) else none

/-- The `zip_longest` loop of the source `unify_shape`: dimension lists are
unified pointwise while both lists last, and the leftover of the longer list
is handled by `unify_tail`.  `xo`/`yo` are the open flags of the two shapes. -/
def unify_dims : List DimFact → List DimFact → Bool → Bool → Option (List DimFact)
  | [], ys, xo, _ => unify_tail xo ys
  | xs, [], _, yo => unify_tail yo xs
  | a :: xs, b :: ys, xo, yo =>
    match unify_dim a b with
    | some d => (unify_dims xs ys xo yo).map (d :: ·)
    | none => none

/-- Attempts to unify two shape facts (`unify_shape` in the source): pointwise
dimension unification under the rank rules; the result is open only when both
inputs are open. -/
def unify_shape (x y : ShapeFact) : Option ShapeFact :=
  (unify_dims x.dims y.dims x.isOpen y.isOpen).map (fun dims =>
    if x.isOpen && y.isOpen then ShapeFact.opened dims else ShapeFact.closed dims)

/-- Attempts to unify two value facts (`unify_value` in the source). -/
def unify_value (x y : ValueFact) : Option ValueFact :=
  match x, y with
  | _, .Any => some x
  | .Any, _ => some y
  | .Only a, .Only b => if a = b then some x else none

/-- Attempts to unify two tensor facts into a more specialized one (`unify` in
the source): componentwise unification, failing if any component fails. -/
def unify (x y : TensorFact) : Option TensorFact := do
  let datatype ← unify_datatype x.datatype y.datatype
  let shape ← unify_shape x.shape y.shape
  let value ← unify_value x.value y.value
  pure { datatype := datatype, shape := shape, value := value }

/-! The refinement (lattice) order on facts, as described by the spec:
`Only _ ≤ Any` in every component, and a closed or longer shape refines an
open prefix with pointwise-refined dimensions. -/

/-- Refinement order on datum type facts. -/
def typeLe (x y : TypeFact) : Prop := y = .Any ∨ x = y

/-- Refinement order on dimension facts. -/
def dimLe (x y : DimFact) : Prop := y = .Any ∨ x = y

/-- Refinement order on value facts. -/
def valueLe (x y : ValueFact) : Prop := y = .Any ∨ x = y

/-- Refinement order on shape facts: anything (closed, or open and longer)
refines an open prefix pointwise; a closed shape is refined only by closed
shapes of the same rank, pointwise. -/
def shapeLe (s t : ShapeFact) : Prop :=
  if t.isOpen then
    t.dims.length ≤ s.dims.length ∧
      ∀ i, (hi : i < t.dims.length) → (hs : i < s.dims.length) →
        dimLe s.dims[i] t.dims[i]
  else
    s.isOpen = false ∧ s.dims.length = t.dims.length ∧
      ∀ i, (hi : i < t.dims.length) → (hs : i < s.dims.length) →
        dimLe s.dims[i] t.dims[i]

/-- Refinement order on tensor facts: componentwise. -/
def factLe (a b : TensorFact) : Prop :=
  typeLe a.datatype b.datatype ∧ shapeLe a.shape b.shape ∧ valueLe a.value b.value

theorem dimLe_refl (a : DimFact) : dimLe a a := Or.inr rfl

theorem dimLe_any (a : DimFact) : dimLe a .Any := Or.inl rfl

theorem shapeLe_refl (s : ShapeFact) : shapeLe s s := by
  unfold shapeLe
  cases h : s.isOpen <;> simp [h] <;>
    exact fun i hi hs => dimLe_refl _

theorem factLe_refl (a : TensorFact) : factLe a a :=
  ⟨Or.inr rfl, shapeLe_refl _, Or.inr rfl⟩

/-! Basic facts about `unify_tail`. -/

theorem unify_tail_true : ∀ l : List DimFact, unify_tail true l = some l
  | [] => rfl
  | d :: rest => by simp [unify_tail, unify_tail_true rest]

theorem unify_tail_spec : ∀ {l cs : List DimFact} {o : Bool},
    unify_tail o l = some cs → cs = l ∧ (o = false → l = [])
  | [], cs, o => by intro h; simp [unify_tail] at h; simp [h.symm]
  | d :: rest, cs, o => by
    intro h
    simp only [unify_tail] at h
    cases o with
    | false => simp at h
    | true =>
      rw [if_pos rfl] at h
      cases hrec : unify_tail true rest with
      | none => rw [hrec] at h; simp at h
      | some cs0 =>
        rw [hrec] at h
        simp at h
        obtain ⟨rfl, _⟩ := unify_tail_spec hrec
        simp [h.symm]

/-! Commutativity of unification. -/

theorem unify_datatype_comm (x y : TypeFact) :
    unify_datatype x y = unify_datatype y x := by
  cases x <;> cases y <;> simp [unify_datatype]
  case Only.Only a b =>
    rcases eq_or_ne a b with rfl | h
    · simp
    · simp [h, h.symm]

theorem unify_value_comm (x y : ValueFact) :
    unify_value x y = unify_value y x := by
  cases x <;> cases y <;> simp [unify_value]
  case Only.Only a b =>
    rcases eq_or_ne a b with rfl | h
    · simp
    · simp [h, h.symm]

theorem unify_dim_comm (a b : DimFact) : unify_dim a b = unify_dim b a := by
  cases a <;> cases b <;> simp [unify_dim]
  case Only.Only a b =>
    rcases eq_or_ne a b with rfl | h
    · simp
    · simp [h, h.symm]

theorem unify_dims_comm :
    ∀ (xs ys : List DimFact) (xo yo : Bool),
      unify_dims xs ys xo yo = unify_dims ys xs yo xo
  | [], [], _, _ => by simp [unify_dims, unify_tail]
  | [], b :: ys, xo, yo => by simp [unify_dims]
  | a :: xs, [], xo, yo => by simp [unify_dims]
  | a :: xs, b :: ys, xo, yo => by
    simp only [unify_dims, unify_dim_comm a b, unify_dims_comm xs ys xo yo]

theorem unify_shape_comm (x y : ShapeFact) : unify_shape x y = unify_shape y x := by
  unfold unify_shape
  rw [unify_dims_comm]
  cases h : unify_dims y.dims x.dims y.isOpen x.isOpen
  · simp
  · simp only [Option.map_some, Bool.and_comm]

theorem unify_comm (x y : TensorFact) : unify x y = unify y x := by
  unfold unify
  rw [unify_datatype_comm, unify_shape_comm, unify_value_comm]

/-! Monotonicity of unification: a successful unification refines both
arguments in the lattice order. -/

theorem unify_dim_le {a b c : DimFact} (h : unify_dim a b = some c) :
    dimLe c a ∧ dimLe c b := by
  cases a <;> cases b <;> simp [unify_dim] at h
  · subst h; exact ⟨dimLe_refl _, dimLe_refl _⟩
  · subst h; exact ⟨dimLe_any _, dimLe_refl _⟩
  · subst h; exact ⟨dimLe_refl _, dimLe_any _⟩
  case Only.Only x y =>
    obtain ⟨rfl, rfl⟩ := h
    exact ⟨dimLe_refl _, dimLe_refl _⟩

/-- Main structural description of a successful `unify_dims`: the result has
the longer length, is pointwise below both inputs, and closed inputs bound the
length of the other side. -/
theorem unify_dims_spec :
    ∀ {xs ys : List DimFact} {xo yo : Bool} {cs : List DimFact},
      unify_dims xs ys xo yo = some cs →
      cs.length = max xs.length ys.length ∧
      (∀ i, (hx : i < xs.length) → (hc : i < cs.length) → dimLe cs[i] xs[i]) ∧
      (∀ i, (hy : i < ys.length) → (hc : i < cs.length) → dimLe cs[i] ys[i]) ∧
      (xo = false → ys.length ≤ xs.length) ∧
      (yo = false → xs.length ≤ ys.length)
  | [], ys, xo, yo, cs => by
    intro h
    simp only [unify_dims] at h
    obtain ⟨rfl, hclosed⟩ := unify_tail_spec h
    refine ⟨by simp, by intro i hx; simp at hx, fun i hy hc => dimLe_refl _, ?_,
      by intro _; simp⟩
    intro h0
    rw [hclosed h0]
  | a :: xs, [], xo, yo, cs => by
    intro h
    simp only [unify_dims] at h
    obtain ⟨rfl, hclosed⟩ := unify_tail_spec h
    refine ⟨by simp, fun i hx hc => dimLe_refl _, by intro i hy; simp at hy,
      by intro _; simp, ?_⟩
    intro h0
    exact absurd (hclosed h0) (by simp)
  | a :: xs, b :: ys, xo, yo, cs => by
    intro h
    simp only [unify_dims] at h
    cases hd : unify_dim a b with
    | none => rw [hd] at h; simp at h
    | some d =>
      rw [hd] at h
      cases hrec : unify_dims xs ys xo yo with
      | none => rw [hrec] at h; simp at h
      | some cs0 =>
        rw [hrec] at h
        simp at h
        subst h
        obtain ⟨hlen, hxs, hys, hxc, hyc⟩ := unify_dims_spec hrec
        obtain ⟨hda, hdb⟩ := unify_dim_le hd
        refine ⟨?_, ?_, ?_, ?_, ?_⟩
        · simp [hlen, Nat.succ_max_succ]
        · intro i hx hc
          cases i with
          | zero => exact hda
          | succ j =>
            simp only [List.getElem_cons_succ]
            exact hxs j (by simpa using hx) (by simpa using hc)
        · intro i hy hc
          cases i with
          | zero => exact hdb
          | succ j =>
            simp only [List.getElem_cons_succ]
            exact hys j (by simpa using hy) (by simpa using hc)
        · intro h0; simpa using hxc h0
        · intro h0; simpa using hyc h0

theorem unify_shape_eq {x y c : ShapeFact} (h : unify_shape x y = some c) :
    ∃ dims, unify_dims x.dims y.dims x.isOpen y.isOpen = some dims ∧
      c = ⟨x.isOpen && y.isOpen, dims⟩ := by
  unfold unify_shape at h
  cases hd : unify_dims x.dims y.dims x.isOpen y.isOpen with
  | none => rw [hd] at h; simp at h
  | some dims =>
    rw [hd] at h
    rw [Option.map_some'] at h
    have h := Option.some.inj h
    refine ⟨dims, rfl, ?_⟩
    by_cases hb : (x.isOpen && y.isOpen) = true
    · rw [if_pos hb] at h; rw [← h, hb]; rfl
    · rw [if_neg hb] at h
      rw [← h]
      have : (x.isOpen && y.isOpen) = false := by
        cases hxy : (x.isOpen && y.isOpen) <;> simp_all
      rw [this]; rfl

theorem unify_shape_isOpen {x y c : ShapeFact} (h : unify_shape x y = some c) :
    c.isOpen = (x.isOpen && y.isOpen) := by
  obtain ⟨dims, _, rfl⟩ := unify_shape_eq h
  rfl

theorem unify_shape_le {x y c : ShapeFact} (h : unify_shape x y = some c) :
    shapeLe c x ∧ shapeLe c y := by
  obtain ⟨dims, hd, rfl⟩ := unify_shape_eq h
  obtain ⟨hlen, hxs, hys, hxc, hyc⟩ := unify_dims_spec hd
  constructor
  · unfold shapeLe
    cases hxo : x.isOpen with
    | true =>
      simp only [hxo, if_true]
      exact ⟨by simp [hlen], fun i hi hs => hxs i hi hs⟩
    | false =>
      simp only [hxo, if_false]
      refine ⟨by simp [hxo], ?_, fun i hi hs => hxs i hi hs⟩
      have := hxc hxo
      simp [hlen]
      omega
  · unfold shapeLe
    cases hyo : y.isOpen with
    | true =>
      simp only [hyo, if_true]
      exact ⟨by simp [hlen], fun i hi hs => hys i hi hs⟩
    | false =>
      simp only [hyo, if_false]
      refine ⟨by simp [hyo], ?_, fun i hi hs => hys i hi hs⟩
      have := hyc hyo
      simp [hlen]
      omega

theorem unify_datatype_le {x y c : TypeFact} (h : unify_datatype x y = some c) :
    typeLe c x ∧ typeLe c y := by
  cases x <;> cases y <;> simp [unify_datatype] at h
  · subst h; exact ⟨Or.inr rfl, Or.inr rfl⟩
  · subst h; exact ⟨Or.inl rfl, Or.inr rfl⟩
  · subst h; exact ⟨Or.inr rfl, Or.inl rfl⟩
  case Only.Only a b =>
    obtain ⟨rfl, rfl⟩ := h
    exact ⟨Or.inr rfl, Or.inr rfl⟩

theorem unify_value_le {x y c : ValueFact} (h : unify_value x y = some c) :
    valueLe c x ∧ valueLe c y := by
  cases x <;> cases y <;> simp [unify_value] at h
  · subst h; exact ⟨Or.inr rfl, Or.inr rfl⟩
  · subst h; exact ⟨Or.inl rfl, Or.inr rfl⟩
  · subst h; exact ⟨Or.inr rfl, Or.inl rfl⟩
  case Only.Only a b =>
    obtain ⟨rfl, rfl⟩ := h
    exact ⟨Or.inr rfl, Or.inr rfl⟩

theorem unify_bind_elim {x y : TensorFact} {c : TensorFact}
    (h : unify x y = some c) :
    ∃ dt sh v, unify_datatype x.datatype y.datatype = some dt ∧
      unify_shape x.shape y.shape = some sh ∧
      unify_value x.value y.value = some v ∧
      c = { datatype := dt, shape := sh, value := v } := by
  unfold unify at h
  cases hdt : unify_datatype x.datatype y.datatype with
  | none => rw [hdt] at h; simp at h
  | some dt =>
    rw [hdt] at h
    cases hsh : unify_shape x.shape y.shape with
    | none => rw [hsh] at h; simp at h
    | some sh =>
      rw [hsh] at h
      cases hv : unify_value x.value y.value with
      | none => rw [hv] at h; simp at h
      | some v =>
        rw [hv] at h
        simp at h
        exact ⟨dt, sh, v, rfl, rfl, rfl, h.symm⟩

theorem unify_le {x y c : TensorFact} (h : unify x y = some c) :
    factLe c x ∧ factLe c y := by
  obtain ⟨dt, sh, v, hdt, hsh, hv, rfl⟩ := unify_bind_elim h
  obtain ⟨ht1, ht2⟩ := unify_datatype_le hdt
  obtain ⟨hs1, hs2⟩ := unify_shape_le hsh
  obtain ⟨hv1, hv2⟩ := unify_value_le hv
  exact ⟨⟨ht1, hs1, hv1⟩, ⟨ht2, hs2, hv2⟩⟩

/-! The graph model.  `Model`, `Node` and `Plan` live in source files that are
not part of the provided sources, so they are modelled from the spec; `Edge`
and `Analyser` are translated from `mod.rs`. -/

/-- Outcome of a Rust call in the model: a panic (index out of bounds or an
explicit `panic!` in the source), a recoverable `Err`, or a value. -/
inductive RResult (α : Type) where
  | panicked : RResult α
  | error : RResult α
  | ok : α → RResult α
  deriving DecidableEq

/-- Modelled from the spec: an operator exposes pure forward and backward
transfer functions from a list of source-edge facts to either an error, or
"nothing learned" (`none`), or a list of produced facts. -/
structure Op where
  infer_forward : List TensorFact → Except Unit (Option (List TensorFact))
  infer_backward : List TensorFact → Except Unit (Option (List TensorFact))

/-- Modelled from the spec: a graph node. -/
structure Node where
  id : Nat
  name : String
  op_name : String
  op : Op
  inputs : List (Nat × Option Nat)

/-- Modelled from the spec: a model is the list of nodes (the name-to-id table
is omitted; no claim mentions it). -/
structure Model where
  nodes : List Node

/-- An edge of the analysed graph, annotated by a fact (from `mod.rs`). -/
structure Edge where
  id : Nat
  from_node : Option Nat
  from_out : Nat
  to_node : Option Nat
  fact : TensorFact
  deriving DecidableEq

/-- A graph analyser, along with its current state (from `mod.rs`). -/
structure Analyser where
  output : Nat
  nodes : List Node
  edges : List Edge
  prev_edges : List (List Nat)
  next_edges : List (List Nat)
  plan : List Nat
  current_pass : Nat
  current_step : Nat
  current_direction : Bool

/-- Inner loop of the successor construction in `detect_output`:
`succs[link.0].push(node.id)` for each input link; `none` models the index
panic when a link mentions a node outside the vector. -/
def addSuccs (id : Nat) : List (Nat × Option Nat) → List (List Nat) → Option (List (List Nat))
  | [], succs => some succs
  | p :: ps, succs =>
    match succs[p.fst]? with
    | some row => addSuccs id ps (succs.set p.fst (row ++ [id]))
    | none => none

/-- Outer loop of the successor construction in `detect_output`. -/
def buildSuccs : List Node → List (List Nat) → Option (List (List Nat))
  | [], succs => some succs
  | n :: rest, succs =>
    match addSuccs n.id n.inputs succs with
    | some succs' => buildSuccs rest succs'
    | none => none

/-- The `for (i, s) in succs.iter().enumerate()` scan of `detect_output`:
index of the first empty successor list, starting the count at `i0`. -/
def findNoSucc : Nat → List (List Nat) → Option Nat
  | _, [] => none
  | i0, s :: rest => if s.length = 0 then some i0 else findNoSucc (i0 + 1) rest

/-- Tries to auto-detect the name of the output node (`detect_output` in the
source): scans the successor vector and returns the first node with no
successor; the outer `none` models a panic or a `get_node_by_id` error. -/
def detect_output (m : Model) : Option (Option Nat) :=
  match buildSuccs m.nodes (List.replicate m.nodes.length []) with
  | none => none
  | some succs =>
    match findNoSucc 0 succs with
    | some i =>
      match m.nodes[i]? with
      | some _ => some (some i)
      | none => none
    | none => some none

/-- Producer ids of the inputs of node `i`. -/
def nodePreds (nodes : List Node) (i : Nat) : List Nat :=
  match nodes[i]? with
  | some n => n.inputs.map (·.fst)
  | none => []

/-- Fueled closure computation for the set of transitive predecessors. -/
def closeNeeded (nodes : List Node) : Nat → List Nat → List Nat
  | 0, acc => acc
  | fuel+1, acc =>
    let more := ((acc.map (nodePreds nodes)).flatten.filter (fun j => !acc.contains j)).dedup
    if more.isEmpty then acc else closeNeeded nodes fuel (acc ++ more)

/-- One round of the list scheduler: needed nodes all of whose producers are
already placed. -/
def planRound (nodes : List Node) (needed placed : List Nat) : List Nat :=
  (List.range nodes.length).filter
    (fun i => needed.contains i && !placed.contains i && (nodePreds nodes i).all (placed.contains ·))

/-- Fueled scheduling loop. -/
def planLoop (nodes : List Node) (needed : List Nat) : Nat → List Nat → List Nat
  | 0, placed => placed
  | fuel+1, placed =>
    let cand := planRound nodes needed placed
    if cand.isEmpty then placed else planLoop nodes needed fuel (placed ++ cand)

/-- Modelled from the spec: `Plan::for_nodes` (whose source is not provided)
computes a topological order of the transitive predecessors of the outputs,
leaves first; an unknown output or a cycle is an error (`none`). -/
def planForNodes (nodes : List Node) (outputs : List Nat) : Option (List Nat) :=
  if outputs.all (fun o => o < nodes.length) then
    let needed := closeNeeded nodes nodes.length outputs.dedup
    let order := planLoop nodes needed nodes.length []
    if needed.all (order.contains ·) then some order else none
  else none

/-- Push `x` onto the row at index `i`; `none` models the index panic. -/
def pushAt (rows : List (List Nat)) (i x : Nat) : Option (List (List Nat)) :=
  match rows[i]? with
  | some row => some (rows.set i (row ++ [x]))
  | none => none

/-- Inner loop of `Analyser::new`: create one edge per input of a node and
record it in both adjacency tables. -/
def addEdgesFor (nodeId : Nat) :
    List (Nat × Option Nat) → List Edge × List (List Nat) × List (List Nat) →
      Option (List Edge × List (List Nat) × List (List Nat))
  | [], st => some st
  | input :: rest, (edges, prevE, nextE) =>
    let id := edges.length
    let e : Edge :=
      { id := id, from_node := some input.fst, from_out := input.snd.getD 0,
        to_node := some nodeId, fact := TensorFact.new }
    match pushAt prevE nodeId id with
    | none => none
    | some prevE' =>
      match pushAt nextE input.fst id with
      | none => none
      | some nextE' => addEdgesFor nodeId rest (edges ++ [e], prevE', nextE')

/-- Outer loop of `Analyser::new` over the nodes. -/
def buildEdges :
    List Node → List Edge × List (List Nat) × List (List Nat) →
      Option (List Edge × List (List Nat) × List (List Nat))
  | [], st => some st
  | n :: rest, st =>
    match addEdgesFor n.id n.inputs st with
    | some st' => buildEdges rest st'
    | none => none

/-- Constructs an analyser for the given graph (`Analyser::new`): one edge per
input link, a synthetic output edge, and an execution plan. -/
def Analyser.new (model : Model) (output : Nat) : RResult Analyser :=
  match buildEdges model.nodes
      ([], List.replicate (model.nodes.length + 1) [],
        List.replicate (model.nodes.length + 1) []) with
  | none => .panicked
  | some (edges, prevE, nextE) =>
    match pushAt nextE output edges.length with
    | none => .panicked
    | some nextE' =>
      match planForNodes model.nodes [output] with
      | none => .error
      | some plan =>
        .ok { output := output, nodes := model.nodes,
              edges := edges ++ [{ id := edges.length, from_node := some output,
                                   from_out := 0, to_node := none,
                                   fact := TensorFact.new }],
              prev_edges := prevE, next_edges := nextE', plan := plan,
              current_pass := 0, current_step := 0, current_direction := true }

/-- Loop of `Analyser::hint`: unify the hinted fact into every listed edge. -/
def hintLoop (fact : TensorFact) : List Nat → List Edge → List Edge × RResult Unit
  | [], edges => (edges, .ok ())
  | j :: rest, edges =>
    match edges[j]? with
    | none => (edges, .panicked)
    | some e =>
      match unify fact e.fact with
      | none => (edges, .error)
      | some u => hintLoop fact rest (edges.set j { e with fact := u })

/-- Adds an user-provided tensor fact to the analyser (`Analyser::hint`):
fails on a node index outside the adjacency table, otherwise unifies the fact
into every outgoing edge of the node. -/
def Analyser.hint (a : Analyser) (node : Nat) (fact : TensorFact) :
    Analyser × RResult Unit :=
  if h : node < a.next_edges.length then
    match hintLoop fact a.next_edges[node] a.edges with
    | (edges', r) => ({ a with edges := edges' }, r)
  else (a, .error)

/-- Gather the facts of the listed edges (the `sources` vector of `try_step`);
`none` models the index panic. -/
def collectFacts (edges : List Edge) : List Nat → Option (List TensorFact)
  | [] => some []
  | j :: rest =>
    match edges[j]? with
    | none => none
    | some e => (collectFacts edges rest).map (e.fact :: ·)

/-- The target-edge loop of `try_step`.  In the forward direction the source
panics when the operator produced more than one fact and otherwise unifies
`inferred[0]` into every target edge; in the backward direction target edge
number `i` is unified with `inferred[i]` (an index panic when `inferred` is
too short).  A fact is written back only when it differs. -/
def tryStepLoop (dir : Bool) (inferred : List TensorFact) :
    List Nat → Nat → List Edge → Bool → List Edge × RResult Bool
  | [], _, edges, changed => (edges, .ok changed)
  | j :: rest, i, edges, changed =>
    let factOpt : Option TensorFact :=
      if dir then
        if 1 < inferred.length then none else inferred[0]?
      else inferred[i]?
    match factOpt with
    | none => (edges, .panicked)
    | some fact =>
      match edges[j]? with
      | none => (edges, .panicked)
      | some e =>
        match unify fact e.fact with
        | none => (edges, .error)
        | some unified =>
          if unified = e.fact then tryStepLoop dir inferred rest (i + 1) edges changed
          else tryStepLoop dir inferred rest (i + 1) (edges.set j { e with fact := unified }) true

/-- Tries to run a single step of the analysis (`Analyser::try_step`), and
returns whether any additional information was gained. -/
def Analyser.try_step (a : Analyser) : Analyser × RResult Bool :=
  match (if a.current_direction then a.plan[a.current_step]?
         else if a.current_step < a.plan.length then
           a.plan[a.plan.length - 1 - a.current_step]?
         else none) with
  | none => (a, .panicked)
  | some nodeIdx =>
    match a.nodes[nodeIdx]? with
    | none => (a, .panicked)
    | some node =>
      match (if a.current_direction then a.prev_edges else a.next_edges)[node.id]? with
      | none => (a, .panicked)
      | some srcRow =>
        match collectFacts a.edges srcRow with
        | none => (a, .panicked)
        | some sources =>
          match (if a.current_direction then node.op.infer_forward sources
                 else node.op.infer_backward sources) with
          | .error _ => (a, .error)
          | .ok none => (a, .ok false)
          | .ok (some inferred) =>
            match (if a.current_direction then a.next_edges else a.prev_edges)[node.id]? with
            | none => (a, .panicked)
            | some tgtRow =>
              match tryStepLoop a.current_direction inferred tgtRow 0 a.edges false with
              | (edges', r) => ({ a with edges := edges' }, r)

/-- Runs a single step of the analysis (`Analyser::run_step`): a `try_step`
followed by the step/pass/direction bookkeeping. -/
def Analyser.run_step (a : Analyser) : Analyser × RResult Bool :=
  match a.try_step with
  | (a', .ok changed) =>
    if a'.current_step + 1 = a'.plan.length then
      ({ a' with current_pass := a'.current_pass + 1,
                 current_direction := !a'.current_direction,
                 current_step := 0 }, .ok changed)
    else ({ a' with current_step := a'.current_step + 1 }, .ok changed)
  | (a', r) => (a', r)

/-- The `for _ in 0..plan.len()` loops of `run_two_passes`: run `n` steps,
or-ing the change flags, propagating errors and panics. -/
def stepsLoop : Nat → Analyser → Bool → Analyser × RResult Bool
  | 0, a, changed => (a, .ok changed)
  | n + 1, a, changed =>
    match a.run_step with
    | (a', .ok ch) => stepsLoop n a' (changed || ch)
    | (a', r) => (a', r)

/-- Runs two passes of the analysis (`Analyser::run_two_passes`): a forward
sweep then a backward sweep, each preceded by a step-counter reset, reporting
whether any edge fact changed. -/
def Analyser.run_two_passes (a : Analyser) : Analyser × RResult Bool :=
  let a0 := { a with current_step := 0 }
  match stepsLoop a0.plan.length a0 false with
  | (a1, .ok c1) =>
    let a1' := { a1 with current_step := 0 }
    stepsLoop a1'.plan.length a1' c1
  | (a1, r) => (a1, r)

/-- The loop of `Analyser::run`: repeat `run_two_passes` until it reports no
change.  The loop of the source has no bound, so the model takes a fuel
argument; `none` means the loop was still running after `fuel` iterations. -/
def runFuel : Nat → Analyser → Option (Analyser × RResult Unit)
  | 0, _ => none
  | fuel + 1, a =>
    match a.run_two_passes with
    | (a', .ok true) => runFuel fuel a'
    | (a', .ok false) => some (a', .ok ())
    | (a', .error) => some (a', .error)
    | (a', .panicked) => some (a', .panicked)

/-- Runs the entire analysis at once (`Analyser::run`): reset the pass counter
and iterate `run_two_passes` to a fixed point. -/
def Analyser.run (a : Analyser) (fuel : Nat) : Option (Analyser × RResult Unit) :=
  runFuel fuel { a with current_pass := 0 }

/-! Dead-subgraph pruning (`Analyser::prune_unused`).  The source mutates the
vectors in place with a cursor/`deleted` pattern and unwraps mapping entries;
in the model every indexing or `unwrap` that would panic returns `none`. -/

/-- State of the node-removal loop of `prune_unused`. -/
structure PruneSt where
  nodes : List Node
  prevE : List (List Nat)
  nextE : List (List Nat)
  deleted : Nat
  mapping : List (Option Nat)
  edgeUsed : List Bool

/-- Set `edge_used[j] = true` for every `j` in the row (`none` on an index
panic). -/
def markUsed : List Bool → List Nat → Option (List Bool)
  | eu, [] => some eu
  | eu, j :: rest =>
    if j < eu.length then markUsed (eu.set j true) rest else none

/-- One iteration of the node-removal loop of `prune_unused` at original index
`i`: remove the node (and its adjacency rows) when unused, otherwise record
its new index and mark its adjacent edges as used. -/
def pruneNodeStep (used : List Bool) (s : PruneSt) (i : Nat) : Option PruneSt :=
  match used[i]? with
  | none => none
  | some false =>
    if i - s.deleted < s.nodes.length ∧ i - s.deleted < s.prevE.length ∧
        i - s.deleted < s.nextE.length then
      some { s with nodes := s.nodes.eraseIdx (i - s.deleted),
                    prevE := s.prevE.eraseIdx (i - s.deleted),
                    nextE := s.nextE.eraseIdx (i - s.deleted),
                    deleted := s.deleted + 1 }
    else none
  | some true =>
    if i < s.mapping.length then
      match s.prevE[i - s.deleted]?, s.nextE[i - s.deleted]? with
      | some rp, some rn =>
        match markUsed s.edgeUsed rp with
        | none => none
        | some eu1 =>
          match markUsed eu1 rn with
          | none => none
          | some eu2 =>
            some { s with mapping := s.mapping.set i (some (i - s.deleted)),
                          edgeUsed := eu2 }
      | _, _ => none
    else none

/-- The node-removal loop of `prune_unused`, driven over the original index
range. -/
def pruneNodesGo (used : List Bool) : List Nat → PruneSt → Option PruneSt
  | [], s => some s
  | i :: rest, s =>
    match pruneNodeStep used s i with
    | some s' => pruneNodesGo used rest s'
    | none => none

/-- The `node_used` vector: `vec![false; n]` then `node_used[i] = true` for
every `i` of the plan (`none` models the index panic on a plan entry outside
the vector). -/
def buildNodeUsed (len : Nat) : List Nat → List Bool → Option (List Bool)
  | [], u => some u
  | i :: rest, u =>
    if i < u.length then buildNodeUsed len rest (u.set i true) else none

/-- Rewrite one node through `node_mapping` (`node.id = node_mapping[node.id]
.unwrap()` and the same for every producer id of its inputs); `none` models
either panic. -/
def remapNode (mapping : List (Option Nat)) (n : Node) : Option Node :=
  match (mapping[n.id]?).join with
  | none => none
  | some newId =>
    match n.inputs.mapM (fun p => ((mapping[p.fst]?).join).map (fun q => (q, p.snd))) with
    | none => none
    | some newInputs => some { n with id := newId, inputs := newInputs }

/-- Rewrite the endpoints of one edge through `node_mapping` (no unwrap here:
a pruned endpoint becomes `None`); `none` models the index panic. -/
def remapEdge (mapping : List (Option Nat)) (e : Edge) : Option Edge :=
  match e.from_node with
  | none =>
    match e.to_node with
    | none => some e
    | some i => (mapping[i]?).map (fun tn => { e with to_node := tn })
  | some i =>
    match mapping[i]? with
    | none => none
    | some fn =>
      match e.to_node with
      | none => some { e with from_node := fn }
      | some k => (mapping[k]?).map (fun tn => { e with from_node := fn, to_node := tn })

/-- One iteration of the edge-removal loop of `prune_unused` at original edge
index `i`. -/
def pruneEdgeStep (eu : List Bool) (s : List Edge × Nat × List (Option Nat)) (i : Nat) :
    Option (List Edge × Nat × List (Option Nat)) :=
  match eu[i]? with
  | none => none
  | some false =>
    if i - s.2.1 < s.1.length then
      some (s.1.eraseIdx (i - s.2.1), s.2.1 + 1, s.2.2)
    else none
  | some true =>
    if i < s.2.2.length then some (s.1, s.2.1, s.2.2.set i (some (i - s.2.1)))
    else none

/-- The edge-removal loop of `prune_unused`. -/
def pruneEdgesGo (eu : List Bool) :
    List Nat → List Edge × Nat × List (Option Nat) →
      Option (List Edge × Nat × List (Option Nat))
  | [], s => some s
  | i :: rest, s =>
    match pruneEdgeStep eu s i with
    | some s' => pruneEdgesGo eu rest s'
    | none => none

/-- Rewrite one adjacency row through `edge_mapping` (with `unwrap`). -/
def remapRow (emap : List (Option Nat)) (row : List Nat) : Option (List Nat) :=
  row.mapM (fun j => (emap[j]?).join)

/-- The final adjacency-rewrite loop of `prune_unused`: rewrite the rows of
indices `0..count` in place. -/
def remapRows (emap : List (Option Nat)) : List Nat → List (List Nat) → Option (List (List Nat))
  | [], rows => some rows
  | i :: rest, rows =>
    match rows[i]? with
    | none => none
    | some row =>
      match remapRow emap row with
      | none => none
      | some row' => remapRows emap rest (rows.set i row')

/-- Removes the nodes and edges which are not part of the execution plan
(`Analyser::prune_unused`) and returns the old-to-new node index mapping;
`none` models any of the panics of the source. -/
def Analyser.prune_unused (a : Analyser) : Option (Analyser × List (Option Nat)) :=
  match buildNodeUsed a.nodes.length a.plan (List.replicate a.nodes.length false) with
  | none => none
  | some used =>
    match pruneNodesGo used (List.range a.nodes.length)
        { nodes := a.nodes, prevE := a.prev_edges, nextE := a.next_edges,
          deleted := 0, mapping := List.replicate a.nodes.length none,
          edgeUsed := List.replicate a.edges.length false } with
    | none => none
    | some s1 =>
      match s1.nodes.mapM (remapNode s1.mapping) with
      | none => none
      | some nodes2 =>
        match a.edges.mapM (remapEdge s1.mapping) with
        | none => none
        | some edges2 =>
          match pruneEdgesGo s1.edgeUsed (List.range a.edges.length)
              (edges2, 0, List.replicate a.edges.length none) with
          | none => none
          | some (edges3, _, emap) =>
            match remapRows emap (List.range nodes2.length) s1.prevE with
            | none => none
            | some prevE2 =>
              match remapRows emap (List.range nodes2.length) s1.nextE with
              | none => none
              | some nextE2 =>
                some ({ a with nodes := nodes2, edges := edges3,
                               prev_edges := prevE2, next_edges := nextE2 },
                      s1.mapping)

/-! The adjacency-consistency invariant of the spec, phrased exactly as the
claim states it: each edge's `id` field occurs in the adjacency row of its
endpoints, and each adjacency entry refers (by position) to an edge that
mentions the node. -/

/-- One edge is adjacency-consistent: its id is listed by its endpoints. -/
def edgeAdjB (a : Analyser) (e : Edge) : Bool :=
  (match e.from_node with
   | some n => ((a.next_edges[n]?).getD []).contains e.id
   | none => true) &&
  (match e.to_node with
   | some n => ((a.prev_edges[n]?).getD []).contains e.id
   | none => true)

/-- One adjacency row is consistent: every entry refers to an edge whose
endpoint (given by `endp`) mentions node `i`. -/
def rowAdjB (edges : List Edge) (row : List Nat) (useFrom : Bool) (i : Nat) : Bool :=
  row.all (fun j =>
    match edges[j]? with
    | some e => (if useFrom then e.from_node else e.to_node) == some i
    | none => false)

/-- Adjacency consistency of an analyser state, as stated by the spec. -/
def adjConsistent (a : Analyser) : Bool :=
  a.edges.all (edgeAdjB a) &&
  (List.range a.next_edges.length).all
    (fun i => rowAdjB a.edges ((a.next_edges[i]?).getD []) true i) &&
  (List.range a.prev_edges.length).all
    (fun i => rowAdjB a.edges ((a.prev_edges[i]?).getD []) false i)

/-! Helper lemmas for the rank rules of `unify_shape` (claim C5). -/

theorem unify_dims_closed_ne :
    ∀ (xs ys : List DimFact), xs.length ≠ ys.length →
      unify_dims xs ys false false = none
  | [], [] => by intro h; simp at h
  | [], b :: ys => by intro _; simp [unify_dims, unify_tail]
  | a :: xs, [] => by intro _; simp [unify_dims, unify_tail]
  | a :: xs, b :: ys => by
    intro h
    simp only [unify_dims]
    cases hd : unify_dim a b
    · rfl
    · rw [unify_dims_closed_ne xs ys (by simpa using h)]; rfl

theorem unify_dims_nil_left (ys : List DimFact) (yo : Bool) :
    unify_dims [] ys true yo = some ys := by
  simp [unify_dims, unify_tail_true]

theorem unify_dims_open_closed :
    ∀ (xs ys : List DimFact), xs.length ≤ ys.length →
      (∀ i, (hx : i < xs.length) → (hy : i < ys.length) →
        (unify_dim xs[i] ys[i]).isSome) →
      ∃ cs, unify_dims xs ys true false = some cs ∧ cs.length = ys.length ∧
        (∀ i, (hx : i < xs.length) → (hy : i < ys.length) → (hc : i < cs.length) →
          unify_dim xs[i] ys[i] = some cs[i]) ∧
        (∀ i, (hc : i < cs.length) → (hy : i < ys.length) → xs.length ≤ i →
          cs[i] = ys[i])
  | [], ys => by
    intro _ _
    exact ⟨ys, unify_dims_nil_left ys false, rfl,
      by intro i hx; simp at hx,
      by intro i hc hy _; rfl⟩
  | a :: xs, [] => by
    intro h; simp at h
  | a :: xs, b :: ys => by
    intro hlen hpt
    have h0 := hpt 0 (by simp) (by simp)
    obtain ⟨d, hd⟩ := Option.isSome_iff_exists.mp h0
    obtain ⟨cs, hcs, hlen2, hpt2, htail⟩ :=
      unify_dims_open_closed xs ys (by simpa using hlen)
        (fun i hx hy => hpt (i + 1) (by simpa using hx) (by simpa using hy))
    refine ⟨d :: cs, ?_, by simp [hlen2], ?_, ?_⟩
    · simp only [unify_dims]
      rw [show unify_dim a b = some d from hd, hcs]
      rfl
    · intro i hx hy hc
      cases i with
      | zero => simpa using hd
      | succ j =>
        simpa using hpt2 j (by simpa using hx) (by simpa using hy) (by simpa using hc)
    · intro i hc hy hle
      cases i with
      | zero => simp at hle
      | succ j =>
        simpa using htail j (by simpa using hc) (by simpa using hy) (by simpa using hle)

/-- Claim C5: shape unification obeys the rank rules.  Two closed shapes of
different rank fail to unify; an open shape of length `k` constrains only the
first `k` dimensions and unifies with any closed shape of rank at least `k`
whose first `k` dimensions unify pointwise (the remaining dimensions are
copied); the result is open exactly when both inputs are open; and the
spec's concrete example evaluates as stated. -/
theorem C5_unify_shape_rank_rules :
    (∀ x y : ShapeFact, x.isOpen = false → y.isOpen = false →
      x.dims.length ≠ y.dims.length → unify_shape x y = none) ∧
    (∀ x y : ShapeFact, x.isOpen = true → y.isOpen = false →
      x.dims.length ≤ y.dims.length →
      (∀ i, (hx : i < x.dims.length) → (hy : i < y.dims.length) →
        (unify_dim x.dims[i] y.dims[i]).isSome) →
      ∃ cs, unify_shape x y = some (ShapeFact.closed cs) ∧
        cs.length = y.dims.length ∧
        (∀ i, (hx : i < x.dims.length) → (hy : i < y.dims.length) → (hc : i < cs.length) →
          unify_dim x.dims[i] y.dims[i] = some cs[i]) ∧
        (∀ i, (hc : i < cs.length) → (hy : i < y.dims.length) → x.dims.length ≤ i →
          cs[i] = y.dims[i])) ∧
    (∀ x y c : ShapeFact, unify_shape x y = some c →
      (c.isOpen = true ↔ (x.isOpen = true ∧ y.isOpen = true))) ∧
    unify_shape (ShapeFact.opened [.Any, .Only 2]) (ShapeFact.closed [.Only 1, .Any, .Any]) =
      some (ShapeFact.closed [.Only 1, .Only 2, .Any]) := by
  refine ⟨?_, ?_, ?_, by decide⟩
  · intro x y hxo hyo hne
    have hd : unify_dims x.dims y.dims x.isOpen y.isOpen = none := by
      rw [hxo, hyo]; exact unify_dims_closed_ne _ _ hne
    unfold unify_shape
    rw [hd]
    rfl
  · intro x y hxo hyo hle hpt
    obtain ⟨cs, hcs, hlen, hpt2, htail⟩ := unify_dims_open_closed x.dims y.dims hle hpt
    have hd : unify_dims x.dims y.dims x.isOpen y.isOpen = some cs := by
      rw [hxo, hyo]; exact hcs
    refine ⟨cs, ?_, hlen, hpt2, htail⟩
    unfold unify_shape
    rw [hd]
    simp [hxo, hyo]
  · intro x y c h
    have := unify_shape_isOpen h
    rw [this]
    simp

/-- Witness for claim C5 at concrete shapes: the rank-mismatch case errors and
the open-against-closed case succeeds. -/
theorem C5_witness :
    unify_shape (ShapeFact.closed [.Only 1, .Only 2]) (ShapeFact.closed [.Only 1]) = none ∧
    (unify_shape (ShapeFact.opened [.Any]) (ShapeFact.closed [.Only 3, .Only 4])).isSome = true := by
  constructor
  · exact C5_unify_shape_rank_rules.1 _ _ rfl rfl (by decide)
  · obtain ⟨cs, hcs, _⟩ :=
      C5_unify_shape_rank_rules.2.1 (ShapeFact.opened [.Any])
        (ShapeFact.closed [.Only 3, .Only 4]) rfl rfl (by decide) (by decide)
    rw [hcs]
    rfl

/-- Claim C6: tensor-fact unification is commutative, both in value and in
error status, and the same holds componentwise for `unify_datatype`,
`unify_shape` and `unify_value`. -/
theorem C6_unify_comm :
    (∀ a b : TensorFact, unify a b = unify b a) ∧
    (∀ x y : TypeFact, unify_datatype x y = unify_datatype y x) ∧
    (∀ x y : ShapeFact, unify_shape x y = unify_shape y x) ∧
    (∀ x y : ValueFact, unify_value x y = unify_value y x) :=
  ⟨unify_comm, unify_datatype_comm, unify_shape_comm, unify_value_comm⟩

/-- Claim C7: unification is monotone in the refinement order: a successful
unification is below both of its arguments. -/
theorem C7_unify_monotone :
    ∀ a b c : TensorFact, unify a b = some c → factLe c a ∧ factLe c b :=
  fun _ _ _ h => unify_le h

/-- A sample fact used to witness claim C7. -/
def sampleFact : TensorFact :=
  { datatype := .Only .f32, shape := ShapeFact.closed [.Only 3], value := .Any }

/-- Witness for claim C7: at the concrete input `unify ⊤ sampleFact`, which
succeeds with `sampleFact`, monotonicity holds. -/
theorem C7_witness : factLe sampleFact TensorFact.new ∧ factLe sampleFact sampleFact :=
  C7_unify_monotone TensorFact.new sampleFact sampleFact (by decide)

/-! Claim C1: `detect_output`. -/

/-- Decidable version of "node `i` has no successor in model `m`": no node of
`m` lists `i` as a producer. -/
def noSuccB (m : Model) (i : Nat) : Bool :=
  m.nodes.all (fun n => n.inputs.all (fun p => p.fst != i))

theorem noSuccB_iff (m : Model) (i : Nat) :
    noSuccB m i = true ↔ ∀ n ∈ m.nodes, ∀ p ∈ n.inputs, p.fst ≠ i := by
  simp [noSuccB, List.all_eq_true]

theorem addSuccs_spec (id : Nat) :
    ∀ (ps : List (Nat × Option Nat)) (S : List (List Nat)),
      (∀ p ∈ ps, p.fst < S.length) →
      ∃ S2, addSuccs id ps S = some S2 ∧ S2.length = S.length ∧
        ∀ i, (h2 : i < S2.length) → (h1 : i < S.length) →
          (S2[i] = [] ↔ (S[i] = [] ∧ ∀ p ∈ ps, p.fst ≠ i))
  | [], S => by
    intro _
    exact ⟨S, rfl, rfl, by intro i h2 h1; simp⟩
  | p :: ps, S => by
    intro hbound
    have hp : p.fst < S.length := hbound p (by simp)
    have hrest : ∀ q ∈ ps, q.fst < (S.set p.fst (S[p.fst] ++ [id])).length := by
      intro q hq
      simpa using hbound q (by simp [hq])
    obtain ⟨S2, hS2, hlen, hiff⟩ := addSuccs_spec id ps (S.set p.fst (S[p.fst] ++ [id])) hrest
    refine ⟨S2, ?_, by simpa using hlen, ?_⟩
    · simp only [addSuccs]
      rw [List.getElem?_eq_getElem hp]
      exact hS2
    · intro i h2 h1
      have h1' : i < (S.set p.fst (S[p.fst] ++ [id])).length := by simpa using h1
      rw [hiff i h2 h1']
      by_cases hip : p.fst = i
      · subst hip
        rw [List.getElem_set_self]
        constructor
        · intro ⟨hap, _⟩; simp at hap
        · intro ⟨_, hall⟩
          exact absurd rfl (hall p (by simp))
      · rw [List.getElem_set_ne hip]
        constructor
        · intro ⟨hnil, hall⟩
          exact ⟨hnil, by
            intro q hq
            rcases List.mem_cons.mp hq with hq | hq
            · subst hq; exact fun he => hip he
            · exact hall q hq⟩
        · intro ⟨hnil, hall⟩
          exact ⟨hnil, fun q hq => hall q (by simp [hq])⟩

theorem buildSuccs_spec :
    ∀ (ns : List Node) (S : List (List Nat)),
      (∀ n ∈ ns, ∀ p ∈ n.inputs, p.fst < S.length) →
      ∃ S2, buildSuccs ns S = some S2 ∧ S2.length = S.length ∧
        ∀ i, (h2 : i < S2.length) → (h1 : i < S.length) →
          (S2[i] = [] ↔ (S[i] = [] ∧ ∀ n ∈ ns, ∀ p ∈ n.inputs, p.fst ≠ i))
  | [], S => by
    intro _
    exact ⟨S, rfl, rfl, by intro i h2 h1; simp⟩
  | n :: ns, S => by
    intro hbound
    obtain ⟨S1, hS1, hlen1, hiff1⟩ :=
      addSuccs_spec n.id n.inputs S (fun p hp => hbound n (by simp) p hp)
    obtain ⟨S2, hS2, hlen2, hiff2⟩ := buildSuccs_spec ns S1
      (by intro q hq p hp; rw [hlen1]; exact hbound q (by simp [hq]) p hp)
    refine ⟨S2, ?_, by rw [hlen2, hlen1], ?_⟩
    · simp only [buildSuccs]
      rw [hS1]
      exact hS2
    · intro i h2 h1
      have h1' : i < S1.length := by rw [hlen1]; exact h1
      rw [hiff2 i h2 h1', hiff1 i h1' h1]
      constructor
      · intro ⟨⟨hnil, hthis⟩, hrest⟩
        refine ⟨hnil, ?_⟩
        intro q hq
        rcases List.mem_cons.mp hq with hq | hq
        · subst hq; exact hthis
        · exact hrest q hq
      · intro ⟨hnil, hall⟩
        exact ⟨⟨hnil, hall n (by simp)⟩, fun q hq => hall q (by simp [hq])⟩

theorem findNoSucc_some :
    ∀ (S : List (List Nat)) (i0 j : Nat), findNoSucc i0 S = some j →
      ∃ k, j = i0 + k ∧ ∃ hk : k < S.length, S[k] = [] ∧
        ∀ l, (hl : l < k) → (hl2 : l < S.length) → S[l] ≠ []
  | [], i0, j => by intro h; simp [findNoSucc] at h
  | s :: rest, i0, j => by
    intro h
    simp only [findNoSucc] at h
    by_cases hs : s.length = 0
    · rw [if_pos hs] at h
      have hj : j = i0 := by simpa using h.symm
      subst hj
      have hsnil : s = [] := List.eq_nil_of_length_eq_zero hs
      exact ⟨0, by omega, by simp, by simpa using hsnil, by intro l hl; omega⟩
    · rw [if_neg hs] at h
      obtain ⟨k, rfl, hk, hempty, hbefore⟩ := findNoSucc_some rest (i0 + 1) j h
      refine ⟨k + 1, by omega, by simpa using hk, by simpa using hempty, ?_⟩
      intro l hl hl2
      cases l with
      | zero =>
        intro hnil
        rw [List.getElem_cons_zero] at hnil
        rw [hnil] at hs
        simp at hs
      | succ l =>
        simpa using hbefore l (by omega) (by simpa using hl2)

theorem findNoSucc_none :
    ∀ (S : List (List Nat)) (i0 : Nat), findNoSucc i0 S = none →
      ∀ k, (hk : k < S.length) → S[k] ≠ []
  | [], i0 => by intro _ k hk; simp at hk
  | s :: rest, i0 => by
    intro h
    simp only [findNoSucc] at h
    by_cases hs : s.length = 0
    · rw [if_pos hs] at h; simp at h
    · rw [if_neg hs] at h
      intro k hk
      cases k with
      | zero =>
        intro hnil
        rw [List.getElem_cons_zero] at hnil
        rw [hnil] at hs
        simp at hs
      | succ k =>
        simpa using findNoSucc_none rest (i0 + 1) h k (by simpa using hk)

/-- Claim C1 (amended): `detect_output` returns the node with the smallest id
among those with no successors, regardless of whether it is unique, and
returns none exactly when every node has a successor. -/
theorem C1_detect_output_first_sink (m : Model)
    (hwf : ∀ n ∈ m.nodes, ∀ p ∈ n.inputs, p.fst < m.nodes.length) :
    ∃ r, detect_output m = some r ∧
      ((∃ i, r = some i ∧ i < m.nodes.length ∧ noSuccB m i = true ∧
          ∀ k, k < i → noSuccB m k = false) ∨
        (r = none ∧ ∀ i, i < m.nodes.length → noSuccB m i = false)) := by
  obtain ⟨S2, hS2, hlen, hiff⟩ :=
    buildSuccs_spec m.nodes (List.replicate m.nodes.length [])
      (by intro n hn p hp; simpa using hwf n hn p hp)
  rw [List.length_replicate] at hlen
  have hiffN : ∀ i, (h : i < m.nodes.length) →
      ((S2[i] = []) ↔ noSuccB m i = true) := by
    intro i h
    rw [hiff i (by omega) (by simpa using h), noSuccB_iff]
    simp
  cases hfind : findNoSucc 0 S2 with
  | some j =>
    obtain ⟨k, hk0, hk, hempty, hbefore⟩ := findNoSucc_some S2 0 j hfind
    have hjk : j = k := by omega
    subst hjk
    have hjlt : j < m.nodes.length := by omega
    have hnj : m.nodes[j]? = some (m.nodes[j]) := List.getElem?_eq_getElem hjlt
    have hdo : detect_output m = some (some j) := by
      unfold detect_output
      simp only [hS2, hfind, hnj]
    refine ⟨some j, hdo, Or.inl ⟨j, rfl, hjlt, ?_, ?_⟩⟩
    · exact (hiffN j hjlt).mp hempty
    · intro l hl
      have hllt : l < m.nodes.length := by omega
      have hne := hbefore l hl (by omega)
      cases hq : noSuccB m l
      · rfl
      · exact absurd ((hiffN l hllt).mpr hq) hne
  | none =>
    have hdo : detect_output m = some none := by
      unfold detect_output
      simp only [hS2, hfind]
    refine ⟨none, hdo, Or.inr ⟨rfl, ?_⟩⟩
    intro i hi
    have hne := findNoSucc_none S2 0 hfind i (by omega)
    cases hq : noSuccB m i
    · rfl
    · exact absurd ((hiffN i hi).mpr hq) hne

/-- An operator that learns nothing in either direction. -/
def nullOp : Op :=
  { infer_forward := fun _ => .ok none, infer_backward := fun _ => .ok none }

/-- A model with two nodes and no edges: both nodes lack successors. -/
def modelTwoSinks : Model :=
  ⟨[{ id := 0, name := "a", op_name := "Const", op := nullOp, inputs := [] },
    { id := 1, name := "b", op_name := "Const", op := nullOp, inputs := [] }]⟩

/-- Counterexample to claim C1 as stated: with two successor-less nodes the
claim requires `None`, but `detect_output` returns the first one. -/
theorem C1_counterexample :
    detect_output modelTwoSinks = some (some 0) ∧
    noSuccB modelTwoSinks 0 = true ∧ noSuccB modelTwoSinks 1 = true ∧
    modelTwoSinks.nodes.length = 2 := by
  refine ⟨by decide, by decide, by decide, by decide⟩

/-- Witness for the amended claim C1 at the two-sink model. -/
theorem C1_witness :
    ∃ r, detect_output modelTwoSinks = some r ∧
      ((∃ i, r = some i ∧ i < modelTwoSinks.nodes.length ∧
          noSuccB modelTwoSinks i = true ∧
          ∀ k, k < i → noSuccB modelTwoSinks k = false) ∨
        (r = none ∧ ∀ i, i < modelTwoSinks.nodes.length → noSuccB modelTwoSinks i = false)) :=
  C1_detect_output_first_sink modelTwoSinks (by decide)

/-! Claim C2: `hint` on an unknown node id. -/

/-- Claim C2 (amended): `hint` bails out exactly when the id is at least
`nodes.length + 1` (the adjacency tables carry one spare trailing row), and
then no edge fact changes; at id = `nodes.length`, which identifies no node,
it succeeds without changing anything because the spare row is empty. -/
theorem C2_hint_unknown_node (a : Analyser) (f : TensorFact)
    (hlen : a.next_edges.length = a.nodes.length + 1)
    (hrow : a.next_edges[a.nodes.length]? = some []) :
    (∀ id, a.nodes.length + 1 ≤ id → a.hint id f = (a, .error)) ∧
    a.hint a.nodes.length f = (a, .ok ()) := by
  constructor
  · intro id hid
    unfold Analyser.hint
    rw [dif_neg]
    omega
  · unfold Analyser.hint
    rw [dif_pos (by omega)]
    have hget : a.next_edges[a.nodes.length] = [] := by
      have hlt : a.nodes.length < a.next_edges.length := by omega
      have := List.getElem?_eq_getElem hlt
      rw [this] at hrow
      exact Option.some.inj hrow
    rw [hget]
    rfl

/-- A one-node model: a single placeholder without inputs. -/
def modelOneNode : Model :=
  ⟨[{ id := 0, name := "input", op_name := "Placeholder", op := nullOp, inputs := [] }]⟩

/-- The analyser built from `modelOneNode` with output 0: one synthetic output
edge, adjacency tables of length 2, and the one-step plan. -/
def oneA : Analyser :=
  { output := 0,
    nodes := modelOneNode.nodes,
    edges := [{ id := 0, from_node := some 0, from_out := 0, to_node := none,
                fact := TensorFact.new }],
    prev_edges := [[], []],
    next_edges := [[0], []],
    plan := [0],
    current_pass := 0, current_step := 0, current_direction := true }

/-- Counterexample to claim C2 as stated: on the analyser of the one-node
model, node id 1 identifies no node, yet `hint` succeeds (the claim demands
an error).  The first conjunct shows the state is reachable from
`Analyser.new`. -/
theorem C2_counterexample :
    Analyser.new modelOneNode 0 = .ok oneA ∧
    oneA.nodes.length = 1 ∧
    oneA.hint 1 TensorFact.new = (oneA, .ok ()) :=
  ⟨rfl, rfl, rfl⟩

/-- Witness for the amended claim C2 at the one-node analyser. -/
theorem C2_witness :
    oneA.hint 2 TensorFact.new = (oneA, .error) ∧
    oneA.hint 1 TensorFact.new = (oneA, .ok ()) := by
  have h := C2_hint_unknown_node oneA TensorFact.new (by decide) (by decide)
  exact ⟨h.1 2 (by decide), h.2⟩

/-! Claim C8: adjacency consistency.  `hint` and `run_step` only ever rewrite
edge facts, so consistency (which depends only on ids, endpoints and the
adjacency rows) is preserved; construction establishes it. -/

/-- The part of an edge that adjacency consistency can see. -/
def eSkel (e : Edge) : Nat × Option Nat × Option Nat := (e.id, e.from_node, e.to_node)

theorem list_all_congr {α : Type} (l : List α) (f g : α → Bool)
    (h : ∀ x ∈ l, f x = g x) : l.all f = l.all g := by
  induction l with
  | nil => rfl
  | cons x rest ih =>
    simp only [List.all_cons]
    rw [h x (by simp), ih (fun y hy => h y (by simp [hy]))]

theorem list_set_getElem_self {α : Type} :
    ∀ (l : List α) (j : Nat), (h : j < l.length) → l.set j l[j] = l
  | [], j, h => by simp at h
  | x :: rest, 0, _ => rfl
  | x :: rest, j + 1, h => by
    simp only [List.set_cons_succ, List.getElem_cons_succ]
    rw [list_set_getElem_self rest j (by simpa using h)]

theorem map_eSkel_set (edges : List Edge) (j : Nat) (e : Edge) (u : TensorFact)
    (he : edges[j]? = some e) :
    (edges.set j { e with fact := u }).map eSkel = edges.map eSkel := by
  have hj : j < edges.length := by
    by_contra hc
    rw [List.getElem?_eq_none (by omega)] at he
    simp at he
  have he2 : edges[j] = e := by
    rw [List.getElem?_eq_getElem hj] at he
    exact Option.some.inj he
  rw [List.map_set]
  have h1 : eSkel { e with fact := u } = eSkel e := rfl
  rw [h1, ← he2]
  have hj2 : j < (edges.map eSkel).length := by simpa using hj
  have h2 : eSkel edges[j] = (edges.map eSkel)[j] :=
    (List.getElem_map eSkel).symm
  rw [h2]
  exact list_set_getElem_self _ _ (by simpa using hj)

theorem hintLoop_skel (f : TensorFact) :
    ∀ (row : List Nat) (edges : List Edge),
      (hintLoop f row edges).1.map eSkel = edges.map eSkel
  | [], edges => rfl
  | j :: rest, edges => by
    simp only [hintLoop]
    split
    · rfl
    · next e he =>
      split
      · rfl
      · next u hu =>
        rw [hintLoop_skel f rest (edges.set j { e with fact := u })]
        exact map_eSkel_set edges j e u he

theorem tryStepLoop_skel (dir : Bool) (inferred : List TensorFact) :
    ∀ (row : List Nat) (i : Nat) (edges : List Edge) (changed : Bool),
      (tryStepLoop dir inferred row i edges changed).1.map eSkel = edges.map eSkel
  | [], _, edges, _ => rfl
  | j :: rest, i, edges, changed => by
    simp only [tryStepLoop]
    split
    · rfl
    · next fact hf =>
      split
      · rfl
      · next e he =>
        split
        · rfl
        · next unified hu =>
          split
          · exact tryStepLoop_skel dir inferred rest (i + 1) edges changed
          · rw [tryStepLoop_skel dir inferred rest (i + 1) _ true]
            exact map_eSkel_set edges j e unified he

/-- Everything of the analyser state except the edge facts is preserved by
`try_step`. -/
theorem try_step_state (a : Analyser) :
    (a.try_step).1.nodes = a.nodes ∧ (a.try_step).1.prev_edges = a.prev_edges ∧
    (a.try_step).1.next_edges = a.next_edges ∧ (a.try_step).1.plan = a.plan ∧
    (a.try_step).1.edges.map eSkel = a.edges.map eSkel := by
  unfold Analyser.try_step
  repeat' split
  all_goals try exact ⟨rfl, rfl, rfl, rfl, rfl⟩
  all_goals
    (rename_i edges' r heq
     refine ⟨rfl, rfl, rfl, rfl, ?_⟩
     have h2 := congrArg (fun p : List Edge × RResult Bool => p.1.map eSkel) heq
     dsimp only at h2
     rw [← h2]
     exact tryStepLoop_skel _ _ _ _ _ _)

/-- Everything of the analyser state except the edge facts and the step
bookkeeping counters is preserved by `run_step`. -/
theorem run_step_state (a : Analyser) :
    (a.run_step).1.nodes = a.nodes ∧ (a.run_step).1.prev_edges = a.prev_edges ∧
    (a.run_step).1.next_edges = a.next_edges ∧ (a.run_step).1.plan = a.plan ∧
    (a.run_step).1.edges.map eSkel = a.edges.map eSkel := by
  have hts := try_step_state a
  unfold Analyser.run_step
  split
  next a' changed heq =>
    rw [heq] at hts
    split
    · exact hts
    · exact hts
  next a' r heq hne =>
    rw [hne] at hts
    exact hts

theorem rowAdjB_skel (edges edges' : List Edge)
    (h : edges'.map eSkel = edges.map eSkel) (row : List Nat) (uf : Bool) (i : Nat) :
    rowAdjB edges' row uf i = rowAdjB edges row uf i := by
  unfold rowAdjB
  apply list_all_congr
  intro j _
  have hj : (edges'[j]?).map eSkel = (edges[j]?).map eSkel := by
    rw [← List.getElem?_map, ← List.getElem?_map, h]
  cases h1 : edges'[j]? with
  | none =>
    rw [h1] at hj
    cases h2 : edges[j]? with
    | none => rfl
    | some e => rw [h2] at hj; simp at hj
  | some e' =>
    rw [h1] at hj
    cases h2 : edges[j]? with
    | none => rw [h2] at hj; simp at hj
    | some e =>
      rw [h2] at hj
      simp only [Option.map_some'] at hj
      have hsk := Option.some.inj hj
      have hfrom : e'.from_node = e.from_node := congrArg (fun p => p.2.1) hsk
      have hto : e'.to_node = e.to_node := congrArg (fun p => p.2.2) hsk
      cases uf <;> simp [hfrom, hto]

theorem edgeAdjB_skel (a a' : Analyser)
    (hne : a'.next_edges = a.next_edges) (hpe : a'.prev_edges = a.prev_edges)
    (e e' : Edge) (hsk : eSkel e' = eSkel e) : edgeAdjB a' e' = edgeAdjB a e := by
  have hid : e'.id = e.id := congrArg (fun p => p.1) hsk
  have hfrom : e'.from_node = e.from_node := congrArg (fun p => p.2.1) hsk
  have hto : e'.to_node = e.to_node := congrArg (fun p => p.2.2) hsk
  unfold edgeAdjB
  rw [hne, hpe, hid, hfrom, hto]

theorem all_edgeAdjB_skel (a a' : Analyser)
    (hne : a'.next_edges = a.next_edges) (hpe : a'.prev_edges = a.prev_edges) :
    ∀ (l l' : List Edge), l'.map eSkel = l.map eSkel →
      l'.all (edgeAdjB a') = l.all (edgeAdjB a)
  | [], [], _ => rfl
  | [], e :: rest, h => by simp at h
  | e :: rest, [], h => by simp at h
  | e :: rest, e' :: rest', h => by
    simp only [List.map_cons, List.cons.injEq] at h
    simp only [List.all_cons]
    rw [edgeAdjB_skel a a' hne hpe e e' h.1,
      all_edgeAdjB_skel a a' hne hpe rest rest' h.2]

theorem adjConsistent_skel (a a' : Analyser)
    (hne : a'.next_edges = a.next_edges) (hpe : a'.prev_edges = a.prev_edges)
    (hsk : a'.edges.map eSkel = a.edges.map eSkel) :
    adjConsistent a' = adjConsistent a := by
  unfold adjConsistent
  rw [all_edgeAdjB_skel a a' hne hpe a.edges a'.edges hsk]
  simp only [hne, hpe]
  congr 1
  · congr 1
    apply list_all_congr
    intro i _
    exact rowAdjB_skel a.edges a'.edges hsk _ true i
  · apply list_all_congr
    intro i _
    exact rowAdjB_skel a.edges a'.edges hsk _ false i

/-- Adjacency consistency of partially built construction state: ids equal
positions, each edge is listed by its endpoints, and each adjacency entry
points back at a matching edge. -/
def ConsInv (edges : List Edge) (prevE nextE : List (List Nat)) : Prop :=
  (∀ j, (h : j < edges.length) → edges[j].id = j) ∧
  (∀ j, (h : j < edges.length) →
    (∀ n, edges[j].from_node = some n → ∃ hn : n < nextE.length, j ∈ nextE[n]) ∧
    (∀ n, edges[j].to_node = some n → ∃ hn : n < prevE.length, j ∈ prevE[n])) ∧
  (∀ i, (hi : i < nextE.length) → ∀ x ∈ nextE[i], ∃ hx : x < edges.length,
    edges[x].from_node = some i) ∧
  (∀ i, (hi : i < prevE.length) → ∀ x ∈ prevE[i], ∃ hx : x < edges.length,
    edges[x].to_node = some i)

theorem pushAt_spec {rows rows' : List (List Nat)} {i x : Nat}
    (h : pushAt rows i x = some rows') :
    ∃ hi : i < rows.length, rows' = rows.set i (rows[i] ++ [x]) := by
  unfold pushAt at h
  cases hr : rows[i]? with
  | none => rw [hr] at h; simp at h
  | some row =>
    rw [hr] at h
    have hi : i < rows.length := by
      by_contra hc
      rw [List.getElem?_eq_none (by omega)] at hr
      simp at hr
    have hrow : row = rows[i] := by
      rw [List.getElem?_eq_getElem hi] at hr
      exact (Option.some.inj hr).symm
    refine ⟨hi, ?_⟩
    have := Option.some.inj h
    rw [← this, hrow]

/-- Membership in a row after a `pushAt`. -/
theorem mem_set_push {rows : List (List Nat)} {i x k y : Nat}
    (hi : i < rows.length) (hk : k < rows.length)
    (hk2 : k < (rows.set i (rows[i] ++ [x])).length) :
    (y ∈ (rows.set i (rows[i] ++ [x]))[k] ↔
      (y ∈ rows[k] ∨ (k = i ∧ y = x))) := by
  by_cases hki : k = i
  · subst hki
    rw [List.getElem_set_self]
    simp
  · rw [List.getElem_set_ne (by omega)]
    simp [hki]

/-- Pushing one freshly numbered edge onto the construction state preserves
the adjacency invariant.  The new edge always has a producer (`fn`), and
either has a consumer (with the matching `prev` push) or is the synthetic
output edge (no `prev` push). -/
theorem consInv_add (edges : List Edge) (prevE nextE prevE' nextE' : List (List Nat))
    (e : Edge) (hinv : ConsInv edges prevE nextE) (hid : e.id = edges.length)
    (hfn : ∃ fn, e.from_node = some fn ∧ pushAt nextE fn edges.length = some nextE')
    (htn : (∃ tn, e.to_node = some tn ∧ pushAt prevE tn edges.length = some prevE') ∨
      (e.to_node = none ∧ prevE' = prevE)) :
    ConsInv (edges ++ [e]) prevE' nextE' := by
  obtain ⟨hids, hedge, hnext, hprev⟩ := hinv
  obtain ⟨fn, hefn, hpushn⟩ := hfn
  obtain ⟨hfnlt, hn'⟩ := pushAt_spec hpushn
  have hnlen : nextE'.length = nextE.length := by rw [hn']; simp
  have hnmem : ∀ k, (hk : k < nextE.length) → ∀ y,
      (y ∈ nextE'[k] ↔ (y ∈ nextE[k] ∨ (k = fn ∧ y = edges.length))) := by
    intro k hk y
    subst hn'
    exact mem_set_push hfnlt hk (by simpa using hk)
  have hplen : prevE'.length = prevE.length := by
    rcases htn with ⟨tn, _, hpushp⟩ | ⟨_, rfl⟩
    · obtain ⟨_, hp'⟩ := pushAt_spec hpushp
      rw [hp']; simp
    · rfl
  have hpmem : ∀ k, (hk : k < prevE.length) → ∀ y,
      (y ∈ prevE'[k] ↔
        (y ∈ prevE[k] ∨ (e.to_node = some k ∧ y = edges.length))) := by
    intro k hk y
    rcases htn with ⟨tn, hetn, hpushp⟩ | ⟨hetn, rfl⟩
    · obtain ⟨htnlt, hp'⟩ := pushAt_spec hpushp
      subst hp'
      rw [mem_set_push htnlt hk (by simpa using hk)]
      constructor
      · rintro (hy | ⟨rfl, rfl⟩)
        · exact Or.inl hy
        · exact Or.inr ⟨hetn, rfl⟩
      · rintro (hy | ⟨hsome, rfl⟩)
        · exact Or.inl hy
        · rw [hetn] at hsome
          exact Or.inr ⟨(Option.some.inj hsome).symm, rfl⟩
    · constructor
      · exact fun hy => Or.inl hy
      · rintro (hy | ⟨hsome, rfl⟩)
        · exact hy
        · rw [hetn] at hsome; simp at hsome
  have htnlt : ∀ tn, e.to_node = some tn → tn < prevE.length := by
    intro tn hetn
    rcases htn with ⟨tn', hetn', hpushp⟩ | ⟨hetn', _⟩
    · obtain ⟨hlt, _⟩ := pushAt_spec hpushp
      rw [hetn'] at hetn
      rw [← Option.some.inj hetn]
      exact hlt
    · rw [hetn'] at hetn; simp at hetn
  have hlen1 : (edges ++ [e]).length = edges.length + 1 := by simp
  have hgetold : ∀ j, (hj : j < edges.length) →
      (edges ++ [e])[j] = edges[j] := by
    intro j hj
    exact List.getElem_append_left hj
  have hgetnew : (edges ++ [e])[edges.length] = e := by
    simp
  refine ⟨?_, ?_, ?_, ?_⟩
  · intro j h
    rw [hlen1] at h
    by_cases hj : j < edges.length
    · rw [hgetold j hj]; exact hids j hj
    · have : j = edges.length := by omega
      subst this
      rw [hgetnew]; exact hid
  · intro j h
    rw [hlen1] at h
    by_cases hj : j < edges.length
    · rw [hgetold j hj]
      constructor
      · intro n hfrom
        obtain ⟨hn, hmem⟩ := (hedge j hj).1 n hfrom
        exact ⟨by omega, ((hnmem n hn j).mpr (Or.inl hmem))⟩
      · intro n hto
        obtain ⟨hn, hmem⟩ := (hedge j hj).2 n hto
        exact ⟨by omega, ((hpmem n hn j).mpr (Or.inl hmem))⟩
    · have : j = edges.length := by omega
      subst this
      rw [hgetnew]
      constructor
      · intro n hfrom
        rw [hefn] at hfrom
        have : n = fn := Option.some.inj hfrom.symm
        subst this
        exact ⟨by omega, (hnmem n hfnlt _).mpr (Or.inr ⟨rfl, rfl⟩)⟩
      · intro n hto
        have hlt := htnlt n hto
        exact ⟨by omega, (hpmem n hlt _).mpr (Or.inr ⟨hto, rfl⟩)⟩
  · intro i hi x hx
    have hi2 : i < nextE.length := by omega
    rcases (hnmem i hi2 x).mp hx with hold | ⟨rfl, rfl⟩
    · obtain ⟨hxlt, hfrom⟩ := hnext i hi2 x hold
      exact ⟨by omega, by rw [hgetold x hxlt]; exact hfrom⟩
    · exact ⟨by omega, by rw [hgetnew]; exact hefn⟩
  · intro i hi x hx
    have hi2 : i < prevE.length := by omega
    rcases (hpmem i hi2 x).mp hx with hold | ⟨hsome, rfl⟩
    · obtain ⟨hxlt, hto⟩ := hprev i hi2 x hold
      exact ⟨by omega, by rw [hgetold x hxlt]; exact hto⟩
    · exact ⟨by omega, by rw [hgetnew]; exact hsome⟩

theorem addEdgesFor_inv (nodeId : Nat) :
    ∀ (inputs : List (Nat × Option Nat))
      (st st' : List Edge × List (List Nat) × List (List Nat)),
      addEdgesFor nodeId inputs st = some st' →
      ConsInv st.1 st.2.1 st.2.2 → ConsInv st'.1 st'.2.1 st'.2.2
  | [], st, st' => by
    intro h hinv
    simp only [addEdgesFor] at h
    rw [← Option.some.inj h]
    exact hinv
  | input :: rest, (edges, prevE, nextE), st' => by
    intro h hinv
    simp only [addEdgesFor] at h
    split at h
    · exact absurd h (by simp)
    · next prevE' hp =>
      split at h
      · exact absurd h (by simp)
      · next nextE' hn =>
        refine addEdgesFor_inv nodeId rest _ st' h ?_
        exact consInv_add edges prevE nextE prevE' nextE' _ hinv rfl
          ⟨input.fst, rfl, hn⟩ (Or.inl ⟨nodeId, rfl, hp⟩)

theorem buildEdges_inv :
    ∀ (ns : List Node) (st st' : List Edge × List (List Nat) × List (List Nat)),
      buildEdges ns st = some st' →
      ConsInv st.1 st.2.1 st.2.2 → ConsInv st'.1 st'.2.1 st'.2.2
  | [], st, st' => by
    intro h hinv
    simp only [buildEdges] at h
    rw [← Option.some.inj h]
    exact hinv
  | n :: ns, st, st' => by
    intro h hinv
    simp only [buildEdges] at h
    split at h
    · next st1 h1 =>
      exact buildEdges_inv ns st1 st' h (addEdgesFor_inv n.id n.inputs st st1 h1 hinv)
    · exact absurd h (by simp)

theorem consInv_nil (len : Nat) :
    ConsInv [] (List.replicate len []) (List.replicate len []) := by
  refine ⟨?_, ?_, ?_, ?_⟩
  · intro j h; simp at h
  · intro j h; simp at h
  · intro i hi x hx
    rw [List.getElem_replicate] at hx
    simp at hx
  · intro i hi x hx
    rw [List.getElem_replicate] at hx
    simp at hx

theorem consInv_adjConsistent (a : Analyser)
    (h : ConsInv a.edges a.prev_edges a.next_edges) : adjConsistent a = true := by
  obtain ⟨hids, hedge, hnext, hprev⟩ := h
  unfold adjConsistent
  simp only [Bool.and_eq_true, List.all_eq_true]
  refine ⟨⟨?_, ?_⟩, ?_⟩
  · intro e he
    obtain ⟨j, hj, rfl⟩ := List.mem_iff_getElem.mp he
    unfold edgeAdjB
    simp only [Bool.and_eq_true]
    constructor
    · cases hf : a.edges[j].from_node with
      | none => rfl
      | some n =>
        obtain ⟨hn, hmem⟩ := (hedge j hj).1 n hf
        show ((a.next_edges[n]?).getD []).contains (a.edges[j]).id = true
        rw [List.getElem?_eq_getElem hn]
        simp only [Option.getD_some]
        rw [hids j hj]
        simpa using hmem
    · cases hf : a.edges[j].to_node with
      | none => rfl
      | some n =>
        obtain ⟨hn, hmem⟩ := (hedge j hj).2 n hf
        show ((a.prev_edges[n]?).getD []).contains (a.edges[j]).id = true
        rw [List.getElem?_eq_getElem hn]
        simp only [Option.getD_some]
        rw [hids j hj]
        simpa using hmem
  · intro i hi
    have hi2 : i < a.next_edges.length := by simpa using List.mem_range.mp hi
    unfold rowAdjB
    rw [List.all_eq_true]
    intro x hx
    rw [List.getElem?_eq_getElem hi2] at hx
    simp only [Option.getD_some] at hx
    obtain ⟨hxlt, hfrom⟩ := hnext i hi2 x hx
    rw [List.getElem?_eq_getElem hxlt]
    simp [hfrom]
  · intro i hi
    have hi2 : i < a.prev_edges.length := by simpa using List.mem_range.mp hi
    unfold rowAdjB
    rw [List.all_eq_true]
    intro x hx
    rw [List.getElem?_eq_getElem hi2] at hx
    simp only [Option.getD_some] at hx
    obtain ⟨hxlt, hto⟩ := hprev i hi2 x hx
    rw [List.getElem?_eq_getElem hxlt]
    simp [hto]

/-- Everything of the analyser state except the edge facts is preserved by
`hint`. -/
theorem hint_state (a : Analyser) (n : Nat) (f : TensorFact) :
    (a.hint n f).1.nodes = a.nodes ∧ (a.hint n f).1.prev_edges = a.prev_edges ∧
    (a.hint n f).1.next_edges = a.next_edges ∧
    (a.hint n f).1.edges.map eSkel = a.edges.map eSkel := by
  unfold Analyser.hint
  split
  · split
    next edges' r heq =>
      refine ⟨rfl, rfl, rfl, ?_⟩
      have h2 := congrArg (fun p : List Edge × RResult Unit => p.1.map eSkel) heq
      dsimp only at h2
      rw [← h2]
      exact hintLoop_skel f _ a.edges
  · exact ⟨rfl, rfl, rfl, rfl⟩

/-- Claim C8 (amended): adjacency consistency is established by construction
and preserved by `hint` and by `run_step` (they only rewrite edge facts).  It
is not an invariant of `prune_unused`, which compacts the edge vector without
rewriting the edges' `id` fields (see the counterexample). -/
theorem C8_adjacency_invariant :
    (∀ (m : Model) (o : Nat) (a : Analyser), Analyser.new m o = .ok a →
      adjConsistent a = true) ∧
    (∀ (a : Analyser) (n : Nat) (f : TensorFact), adjConsistent a = true →
      adjConsistent (a.hint n f).1 = true) ∧
    (∀ a : Analyser, adjConsistent a = true → adjConsistent (a.run_step).1 = true) := by
  refine ⟨?_, ?_, ?_⟩
  · intro m o a h
    unfold Analyser.new at h
    split at h
    · exact absurd h (by simp)
    · next edges prevE nextE hbe =>
      split at h
      · exact absurd h (by simp)
      · next nextE' hpush =>
        split at h
        · exact absurd h (by simp)
        · next plan hplan =>
          have hinv := buildEdges_inv m.nodes _ _ hbe (consInv_nil _)
          have hinv2 := consInv_add edges prevE nextE prevE nextE'
            { id := edges.length, from_node := some o, from_out := 0,
              to_node := none, fact := TensorFact.new }
            hinv rfl ⟨o, rfl, hpush⟩ (Or.inr ⟨rfl, rfl⟩)
          rw [← RResult.ok.inj h]
          exact consInv_adjConsistent _ hinv2
  · intro a n f h
    have hs := hint_state a n f
    rw [adjConsistent_skel a (a.hint n f).1 hs.2.2.1 hs.2.1 hs.2.2.2]
    exact h
  · intro a h
    have hs := run_step_state a
    rw [adjConsistent_skel a (a.run_step).1 hs.2.2.1 hs.2.1 hs.2.2.2.2]
    exact h

instance : Inhabited Analyser :=
  ⟨{ output := 0, nodes := [], edges := [], prev_edges := [], next_edges := [],
     plan := [], current_pass := 0, current_step := 0, current_direction := true }⟩

/-- A four-node model in which nodes 1 and 2 are dead code for output 3: the
edge between them is the only unused edge, so pruning deletes one edge and
leaves later edges' `id` fields stale. -/
def model4 : Model :=
  ⟨[{ id := 0, name := "p", op_name := "Placeholder", op := nullOp, inputs := [] },
    { id := 1, name := "u1", op_name := "Id", op := nullOp, inputs := [(0, none)] },
    { id := 2, name := "u2", op_name := "Id", op := nullOp, inputs := [(1, none)] },
    { id := 3, name := "out", op_name := "Id", op := nullOp, inputs := [(0, none)] }]⟩

/-- The analyser built from `model4` with output 3. -/
def a4 : Analyser :=
  match Analyser.new model4 3 with
  | .ok a => a
  | _ => default

/-- The result of pruning `a4`. -/
def prunedPair4 : Analyser × List (Option Nat) :=
  (a4.prune_unused).getD default

/-- Counterexample to claim C8 as stated: the analyser of `model4` is
adjacency-consistent, but after `prune_unused` an edge keeps its stale id
field, which no longer occurs in the adjacency row of its producer. -/
theorem C8_counterexample :
    Analyser.new model4 3 = .ok a4 ∧
    adjConsistent a4 = true ∧
    a4.prune_unused = some prunedPair4 ∧
    adjConsistent prunedPair4.1 = false :=
  ⟨rfl, by decide, rfl, by decide⟩

/-- Witness for the amended claim C8 at the one-node analyser. -/
theorem C8_witness :
    adjConsistent oneA = true ∧
    adjConsistent ((oneA.hint 0 TensorFact.new).1) = true ∧
    adjConsistent ((oneA.run_step).1) = true :=
  ⟨C8_adjacency_invariant.1 modelOneNode 0 oneA rfl,
   C8_adjacency_invariant.2.1 oneA 0 TensorFact.new (by decide),
   C8_adjacency_invariant.2.2 oneA (by decide)⟩

/-! Claims C9 and C10: panic behaviour of `try_step`. -/

/-- Entries outside the target row are never touched by the loop. -/
theorem tryStepLoop_untouched (dir : Bool) (inferred : List TensorFact) :
    ∀ (row : List Nat) (i : Nat) (edges : List Edge) (ch : Bool) (k : Nat),
      k ∉ row → (tryStepLoop dir inferred row i edges ch).1[k]? = edges[k]?
  | [], _, edges, _, k => by intro _; rfl
  | j :: rest, i, edges, ch, k => by
    intro hk
    have hkj : k ≠ j := fun h => hk (by simp [h])
    have hkrest : k ∉ rest := fun h => hk (by simp [h])
    simp only [tryStepLoop]
    split
    · rfl
    · next fact hf =>
      split
      · rfl
      · next e he =>
        split
        · rfl
        · next unified hu =>
          split
          · exact tryStepLoop_untouched dir inferred rest (i + 1) edges ch k hkrest
          · rw [tryStepLoop_untouched dir inferred rest (i + 1) _ true k hkrest]
            exact List.getElem?_set_ne (fun h => hkj h.symm)

/-- Forward loop, operator produced exactly one fact: no panic is possible
(given in-bounds target entries), and on success every target edge has been
unified with that single fact. -/
theorem tryStepLoop_forward_one (f : TensorFact) :
    ∀ (row : List Nat) (i : Nat) (edges : List Edge) (ch : Bool),
      (∀ j ∈ row, j < edges.length) →
      (tryStepLoop true [f] row i edges ch).2 ≠ .panicked ∧
      (row.Nodup →
        ∀ (edges' : List Edge) (ch' : Bool),
          tryStepLoop true [f] row i edges ch = (edges', .ok ch') →
          ∀ j ∈ row, ∃ e u, edges[j]? = some e ∧ unify f e.fact = some u ∧
            edges'[j]? = some { e with fact := u })
  | [], _, edges, ch => by
    intro _
    refine ⟨by simp [tryStepLoop], ?_⟩
    intro _ edges' ch' _ j hj
    simp at hj
  | j :: rest, i, edges, ch => by
    intro hbound
    have hj : j < edges.length := hbound j (by simp)
    have he : edges[j]? = some (edges[j]) := List.getElem?_eq_getElem hj
    have hrest : ∀ j2 ∈ rest, j2 < edges.length := fun j2 h2 => hbound j2 (by simp [h2])
    simp only [tryStepLoop]
    split
    · next hf => simp at hf
    · next fact hf =>
      have hffact : f = fact := by simpa using hf
      subst fact
      split
      · next hee => rw [he] at hee; exact absurd hee (by simp)
      · next e hee =>
        obtain rfl : e = edges[j] := by
          rw [he] at hee
          exact (Option.some.inj hee).symm
        split
        · next hu =>
          refine ⟨by simp, ?_⟩
          intro _ edges' ch' habs
          simp at habs
        · next u hu =>
          split
          · next hequ =>
            obtain ⟨hp, hok⟩ := tryStepLoop_forward_one f rest (i + 1) edges ch hrest
            refine ⟨hp, ?_⟩
            intro hnodup edges' ch' hrun j2 hj2
            have hnodup2 : rest.Nodup := (List.nodup_cons.mp hnodup).2
            have hjn : j ∉ rest := (List.nodup_cons.mp hnodup).1
            rcases List.mem_cons.mp hj2 with rfl | hj2r
            · have hun := tryStepLoop_untouched true [f] rest (i + 1) edges ch j2 hjn
              rw [hrun] at hun
              refine ⟨edges[j2], u, he, hu, ?_⟩
              rw [hun, he, hequ]
            · exact hok hnodup2 edges' ch' hrun j2 hj2r
          · next hequ =>
            have hlen : (edges.set j { edges[j] with fact := u }).length = edges.length := by
              simp
            have hrest2 : ∀ j2 ∈ rest,
                j2 < (edges.set j { edges[j] with fact := u }).length := by
              intro j2 h2; rw [hlen]; exact hrest j2 h2
            obtain ⟨hp, hok⟩ := tryStepLoop_forward_one f rest (i + 1) _ true hrest2
            refine ⟨hp, ?_⟩
            intro hnodup edges' ch' hrun j2 hj2
            have hnodup2 : rest.Nodup := (List.nodup_cons.mp hnodup).2
            have hjn : j ∉ rest := (List.nodup_cons.mp hnodup).1
            rcases List.mem_cons.mp hj2 with rfl | hj2r
            · have hfst := congrArg Prod.fst hrun
              dsimp only at hfst
              refine ⟨edges[j2], u, he, hu, ?_⟩
              rw [← hfst]
              rw [tryStepLoop_untouched true [f] rest (i + 1) _ true j2 hjn]
              rw [List.getElem?_eq_getElem (by simpa using hj)]
              rw [List.getElem_set_self]
            · obtain ⟨e2, u2, he2, hu2, hout⟩ := hok hnodup2 edges' ch' hrun j2 hj2r
              have hne : j ≠ j2 := fun h => hjn (h ▸ hj2r)
              rw [List.getElem?_set_ne hne] at he2
              exact ⟨e2, u2, he2, hu2, hout⟩

/-- Forward loop, operator produced more than one fact: the first iteration
panics. -/
theorem tryStepLoop_forward_many (inferred : List TensorFact)
    (hmany : 1 < inferred.length) (j : Nat) (rest : List Nat) (i : Nat)
    (edges : List Edge) (ch : Bool) :
    tryStepLoop true inferred (j :: rest) i edges ch = (edges, .panicked) := by
  simp only [tryStepLoop]
  split
  · rfl
  · next fact hf =>
    simp [hmany] at hf

/-- Backward loop: positional unification on success, and an index panic when
the operator returned fewer facts than there are target edges (provided the
unifications before the shortfall succeed, so that no error preempts it). -/
theorem tryStepLoop_backward_spec :
    ∀ (inferred : List TensorFact) (row : List Nat) (i : Nat) (edges : List Edge)
      (ch : Bool), (∀ j ∈ row, j < edges.length) →
      ((row.Nodup → i + row.length ≤ inferred.length →
        ∀ (edges' : List Edge) (ch' : Bool),
          tryStepLoop false inferred row i edges ch = (edges', .ok ch') →
          ∀ k, (hk : k < row.length) → ∃ e u f, edges[row[k]]? = some e ∧
            inferred[i + k]? = some f ∧ unify f e.fact = some u ∧
            edges'[row[k]]? = some { e with fact := u }) ∧
      (row.Nodup → i ≤ inferred.length → inferred.length < i + row.length →
        (∀ k, (hk : k < row.length) → i + k < inferred.length →
          ∃ e f, edges[row[k]]? = some e ∧ inferred[i + k]? = some f ∧
            (unify f e.fact).isSome = true) →
        (tryStepLoop false inferred row i edges ch).2 = .panicked))
  | inferred, [], i, edges, ch => by
    intro _
    constructor
    · intro _ _ edges' ch' _ k hk
      simp at hk
    · intro _ hile hshort _
      simp at hshort
      omega
  | inferred, j :: rest, i, edges, ch => by
    intro hbound
    have hj : j < edges.length := hbound j (by simp)
    have he : edges[j]? = some (edges[j]) := List.getElem?_eq_getElem hj
    have hrest : ∀ j2 ∈ rest, j2 < edges.length := fun j2 h2 => hbound j2 (by simp [h2])
    simp only [tryStepLoop]
    split
    · next hfnone =>
      have hlen : inferred.length ≤ i := by
        simp at hfnone
        exact hfnone
      constructor
      · intro _ hle edges' ch' habs
        simp at hle
        omega
      · intro _ _ _ _
        rfl
    · next f0 hf0 =>
      have hf0' : inferred[i]? = some f0 := by simpa using hf0
      have hilt : i < inferred.length := by
        by_contra hc
        rw [List.getElem?_eq_none (by omega)] at hf0'
        simp at hf0'
      split
      · next hee => rw [he] at hee; exact absurd hee (by simp)
      · next e hee =>
        obtain rfl : e = edges[j] := by
          rw [he] at hee
          exact (Option.some.inj hee).symm
        split
        · next hu =>
          constructor
          · intro _ _ edges' ch' habs
            simp at habs
          · intro hnodup hile hshort hsucc
            obtain ⟨e2, f2, he2, hf2, hu2⟩ := hsucc 0 (by simp) (by omega)
            simp only [List.getElem_cons_zero, Nat.add_zero] at he2 hf2
            rw [he] at he2
            rw [hf0'] at hf2
            obtain rfl := Option.some.inj he2
            obtain rfl := Option.some.inj hf2
            rw [hu] at hu2
            simp at hu2
        · next u hu =>
          split
          · next hequ =>
            obtain ⟨ihA, ihB⟩ := tryStepLoop_backward_spec inferred rest (i + 1) edges ch hrest
            constructor
            · intro hnodup hle edges' ch' hrun k hk
              have hnodup2 : rest.Nodup := (List.nodup_cons.mp hnodup).2
              have hjn : j ∉ rest := (List.nodup_cons.mp hnodup).1
              cases k with
              | zero =>
                simp only [List.getElem_cons_zero, Nat.add_zero]
                have hfst := congrArg Prod.fst hrun
                dsimp only at hfst
                refine ⟨edges[j], u, f0, he, hf0', hu, ?_⟩
                rw [← hfst]
                rw [tryStepLoop_untouched false inferred rest (i + 1) edges ch j hjn]
                rw [he, hequ]
              | succ k =>
                have hk2 : k < rest.length := by simpa using hk
                obtain ⟨e2, u2, f2, he2, hf2, hu2, hout⟩ :=
                  ihA hnodup2 (by simp at hle; omega) edges' ch' hrun k hk2
                simp only [List.getElem_cons_succ]
                refine ⟨e2, u2, f2, he2, ?_, hu2, hout⟩
                rw [show i + (k + 1) = i + 1 + k by omega]
                exact hf2
            · intro hnodup hile hshort hsucc
              have hnodup2 : rest.Nodup := (List.nodup_cons.mp hnodup).2
              have hjn : j ∉ rest := (List.nodup_cons.mp hnodup).1
              refine ihB hnodup2 (by omega) (by simp at hshort; omega) ?_
              intro k hk hklt
              obtain ⟨e2, f2, he2, hf2, hu2⟩ :=
                hsucc (k + 1) (by simpa using hk) (by omega)
              simp only [List.getElem_cons_succ] at he2 hf2
              refine ⟨e2, f2, he2, ?_, hu2⟩
              rw [show i + 1 + k = i + (k + 1) by omega]
              exact hf2
          · next hequ =>
            have hlen2 : (edges.set j { edges[j] with fact := u }).length = edges.length := by
              simp
            have hrest2 : ∀ j2 ∈ rest,
                j2 < (edges.set j { edges[j] with fact := u }).length := by
              intro j2 h2; rw [hlen2]; exact hrest j2 h2
            obtain ⟨ihA, ihB⟩ := tryStepLoop_backward_spec inferred rest (i + 1) _ true hrest2
            constructor
            · intro hnodup hle edges' ch' hrun k hk
              have hnodup2 : rest.Nodup := (List.nodup_cons.mp hnodup).2
              have hjn : j ∉ rest := (List.nodup_cons.mp hnodup).1
              cases k with
              | zero =>
                simp only [List.getElem_cons_zero, Nat.add_zero]
                have hfst := congrArg Prod.fst hrun
                dsimp only at hfst
                refine ⟨edges[j], u, f0, he, hf0', hu, ?_⟩
                rw [← hfst]
                rw [tryStepLoop_untouched false inferred rest (i + 1) _ true j hjn]
                rw [List.getElem?_eq_getElem (by simpa using hj)]
                rw [List.getElem_set_self]
              | succ k =>
                have hk2 : k < rest.length := by simpa using hk
                obtain ⟨e2, u2, f2, he2, hf2, hu2, hout⟩ :=
                  ihA hnodup2 (by simp at hle; omega) edges' ch' hrun k hk2
                simp only [List.getElem_cons_succ]
                have hne : j ≠ rest[k] := fun h => hjn (h ▸ List.getElem_mem hk2)
                rw [List.getElem?_set_ne hne] at he2
                refine ⟨e2, u2, f2, he2, ?_, hu2, hout⟩
                rw [show i + (k + 1) = i + 1 + k by omega]
                exact hf2
            · intro hnodup hile hshort hsucc
              have hnodup2 : rest.Nodup := (List.nodup_cons.mp hnodup).2
              have hjn : j ∉ rest := (List.nodup_cons.mp hnodup).1
              refine ihB hnodup2 (by omega) (by simp at hshort; omega) ?_
              intro k hk hklt
              obtain ⟨e2, f2, he2, hf2, hu2⟩ :=
                hsucc (k + 1) (by simpa using hk) (by omega)
              simp only [List.getElem_cons_succ] at he2 hf2
              have hne : j ≠ rest[k] := by
                intro h
                exact hjn (h ▸ List.getElem_mem (by simpa using hk))
              refine ⟨e2, f2, ?_, ?_, hu2⟩
              · rw [List.getElem?_set_ne hne]
                exact he2
              · rw [show i + 1 + k = i + (k + 1) by omega]
                exact hf2

/-- Reduction of `try_step` once all its lookups are known: the result is the
target-edge loop applied to the current edges. -/
theorem try_step_eq (a : Analyser) (nodeIdx : Nat) (node : Node)
    (srcRow tgtRow : List Nat) (sources inferred : List TensorFact)
    (hplan : (if a.current_direction then a.plan[a.current_step]?
              else if a.current_step < a.plan.length then
                a.plan[a.plan.length - 1 - a.current_step]?
              else none) = some nodeIdx)
    (hnode : a.nodes[nodeIdx]? = some node)
    (hsrc : (if a.current_direction then a.prev_edges else a.next_edges)[node.id]? =
      some srcRow)
    (hcollect : collectFacts a.edges srcRow = some sources)
    (hinf : (if a.current_direction then node.op.infer_forward sources
             else node.op.infer_backward sources) = .ok (some inferred))
    (htgt : (if a.current_direction then a.next_edges else a.prev_edges)[node.id]? =
      some tgtRow) :
    a.try_step = ({ a with edges :=
        (tryStepLoop a.current_direction inferred tgtRow 0 a.edges false).1 },
      (tryStepLoop a.current_direction inferred tgtRow 0 a.edges false).2) := by
  unfold Analyser.try_step
  simp only [hplan, hnode, hsrc, hcollect, hinf, htgt]

/-- Claim C9: during a forward step, an operator returning more than one fact
makes `try_step` panic (as soon as the node has a target edge); with exactly
one fact, every target edge is unified with that fact and no panic occurs. -/
theorem C9_forward_panic (a : Analyser) (nodeIdx : Nat) (node : Node)
    (srcRow tgtRow : List Nat) (sources facts : List TensorFact)
    (hdir : a.current_direction = true)
    (hplan : a.plan[a.current_step]? = some nodeIdx)
    (hnode : a.nodes[nodeIdx]? = some node)
    (hsrc : a.prev_edges[node.id]? = some srcRow)
    (hcollect : collectFacts a.edges srcRow = some sources)
    (hinf : node.op.infer_forward sources = .ok (some facts))
    (htgt : a.next_edges[node.id]? = some tgtRow) :
    (1 < facts.length → tgtRow ≠ [] → a.try_step = (a, .panicked)) ∧
    (∀ f, facts = [f] → (∀ j ∈ tgtRow, j < a.edges.length) →
      ((a.try_step).2 ≠ .panicked ∧
        (tgtRow.Nodup → ∀ (a' : Analyser) (ch : Bool), a.try_step = (a', .ok ch) →
          ∀ j ∈ tgtRow, ∃ e u, a.edges[j]? = some e ∧ unify f e.fact = some u ∧
            a'.edges[j]? = some { e with fact := u }))) := by
  have heq := try_step_eq a nodeIdx node srcRow tgtRow sources facts
    (by simp [hdir, hplan]) hnode (by simp [hdir, hsrc]) hcollect
    (by simp [hdir, hinf]) (by simp [hdir, htgt])
  have heq2 := heq
  rw [hdir] at heq2
  constructor
  · intro hmany hne
    rw [heq]
    cases tgtRow with
    | nil => exact absurd rfl hne
    | cons j rest =>
      have htl : tryStepLoop a.current_direction facts (j :: rest) 0 a.edges false =
          (a.edges, .panicked) := by
        rw [hdir]
        exact tryStepLoop_forward_many facts hmany j rest 0 a.edges false
      rw [htl]
  · intro f hf hbound
    subst hf
    obtain ⟨hp, hok⟩ := tryStepLoop_forward_one f tgtRow 0 a.edges false hbound
    constructor
    · rw [heq2]
      exact hp
    · intro hnodup a' ch hrun
      rw [heq2] at hrun
      have hfst := congrArg (fun p : Analyser × RResult Bool => p.1.edges) hrun
      dsimp only at hfst
      have hsnd := congrArg Prod.snd hrun
      dsimp only at hsnd
      have hpair : tryStepLoop true [f] tgtRow 0 a.edges false = (a'.edges, .ok ch) :=
        Prod.ext hfst hsnd
      exact hok hnodup a'.edges ch hpair

/-- Claim C10: during a backward step, target edge number `k` is unified with
`facts[k]`; when the operator returns fewer facts than the node has incoming
edges, `try_step` panics on an out-of-bounds index (instead of erroring),
provided no earlier unification fails first. -/
theorem C10_backward_positional (a : Analyser) (nodeIdx : Nat) (node : Node)
    (srcRow tgtRow : List Nat) (sources facts : List TensorFact)
    (hdir : a.current_direction = false)
    (hstep : a.current_step < a.plan.length)
    (hplan : a.plan[a.plan.length - 1 - a.current_step]? = some nodeIdx)
    (hnode : a.nodes[nodeIdx]? = some node)
    (hsrc : a.next_edges[node.id]? = some srcRow)
    (hcollect : collectFacts a.edges srcRow = some sources)
    (hinf : node.op.infer_backward sources = .ok (some facts))
    (htgt : a.prev_edges[node.id]? = some tgtRow)
    (hbound : ∀ j ∈ tgtRow, j < a.edges.length)
    (hnodup : tgtRow.Nodup) :
    ((tgtRow.length ≤ facts.length →
      ∀ (a' : Analyser) (ch : Bool), a.try_step = (a', .ok ch) →
      ∀ k, (hk : k < tgtRow.length) → ∃ e u f, a.edges[tgtRow[k]]? = some e ∧
        facts[k]? = some f ∧ unify f e.fact = some u ∧
        a'.edges[tgtRow[k]]? = some { e with fact := u }) ∧
    (facts.length < tgtRow.length →
      (∀ k, (hk : k < tgtRow.length) → k < facts.length →
        ∃ e f, a.edges[tgtRow[k]]? = some e ∧ facts[k]? = some f ∧
          (unify f e.fact).isSome = true) →
      (a.try_step).2 = .panicked)) := by
  have heq := try_step_eq a nodeIdx node srcRow tgtRow sources facts
    (by simp [hdir, hstep, hplan]) hnode (by simp [hdir, hsrc]) hcollect
    (by simp [hdir, hinf]) (by simp [hdir, htgt])
  rw [hdir] at heq
  obtain ⟨lA, lB⟩ := tryStepLoop_backward_spec facts tgtRow 0 a.edges false hbound
  constructor
  · intro hle a' ch hrun k hk
    rw [heq] at hrun
    have hfst := congrArg (fun p : Analyser × RResult Bool => p.1.edges) hrun
    dsimp only at hfst
    have hsnd := congrArg Prod.snd hrun
    dsimp only at hsnd
    have hpair : tryStepLoop false facts tgtRow 0 a.edges false = (a'.edges, .ok ch) :=
      Prod.ext hfst hsnd
    obtain ⟨e, u, f, he, hf, hu, hout⟩ :=
      lA hnodup (by omega) a'.edges ch hpair k hk
    exact ⟨e, u, f, he, by simpa using hf, hu, hout⟩
  · intro hshort hsucc
    rw [heq]
    refine lB hnodup (by omega) (by omega) ?_
    intro k hk hklt
    obtain ⟨e, f, he, hf, hu⟩ := hsucc k hk (by omega)
    exact ⟨e, f, he, by simpa using hf, hu⟩

/-- An operator whose forward inference illegally returns two output facts. -/
def badOp : Op :=
  { infer_forward := fun _ => .ok (some [TensorFact.new, TensorFact.new]),
    infer_backward := fun _ => .ok none }

/-- A one-node model using `badOp`. -/
def modelBad : Model :=
  ⟨[{ id := 0, name := "b", op_name := "Bad", op := badOp, inputs := [] }]⟩

/-- The analyser of `modelBad`. -/
def badA : Analyser :=
  match Analyser.new modelBad 0 with
  | .ok a => a
  | _ => default

/-- Witness for claim C9: on `badA`, whose operator returns two facts, the
forward step panics. -/
theorem C9_witness : badA.try_step = (badA, .panicked) :=
  (C9_forward_panic badA 0
      { id := 0, name := "b", op_name := "Bad", op := badOp, inputs := [] }
      [] [0] [] [TensorFact.new, TensorFact.new]
      rfl rfl rfl rfl rfl rfl rfl).1 (by decide) (by decide)

/-- An operator whose backward inference returns an empty fact list. -/
def backOp : Op :=
  { infer_forward := fun _ => .ok none,
    infer_backward := fun _ => .ok (some []) }

/-- A two-node model whose sink uses `backOp`. -/
def modelBack : Model :=
  ⟨[{ id := 0, name := "a", op_name := "Placeholder", op := nullOp, inputs := [] },
    { id := 1, name := "b", op_name := "Back", op := backOp, inputs := [(0, none)] }]⟩

/-- The analyser of `modelBack`, about to run a backward step. -/
def backA : Analyser :=
  match Analyser.new modelBack 1 with
  | .ok a => { a with current_direction := false }
  | _ => default

/-- Witness for claim C10: on `backA`, whose operator returns fewer facts than
the node has incoming edges, the backward step panics. -/
theorem C10_witness : (backA.try_step).2 = .panicked :=
  (C10_backward_positional backA 1
      { id := 1, name := "b", op_name := "Back", op := backOp, inputs := [(0, none)] }
      [1] [0] [TensorFact.new] []
      rfl (by decide) rfl rfl rfl rfl rfl rfl (by decide) (by decide)).2
    (by decide) (by intro k hk hklt; simp at hklt)

/-! Claim C3: `prune_unused` keeps exactly the used nodes, in order, with ids
equal to their new positions and inputs rewritten through the mapping. -/

/-- Compaction of a list by a list of keep-flags; indices beyond the flag list
are kept (the loop of the source only runs over the original node range). -/
def keepBy {α : Type} : List Bool → List α → List α
  | true :: bs, x :: xs => x :: keepBy bs xs
  | false :: bs, _ :: xs => keepBy bs xs
  | _, l => l

/-- Number of `true` flags. -/
def cntT (bs : List Bool) : Nat := bs.countP id

/-- Number of `false` flags. -/
def cntF (bs : List Bool) : Nat := bs.countP (fun b => !b)

theorem cnt_sum : ∀ bs : List Bool, cntT bs + cntF bs = bs.length
  | [] => rfl
  | b :: bs => by
    have := cnt_sum bs
    cases b <;> simp [cntT, cntF, List.countP_cons] at * <;> omega

theorem keepBy_snoc_true {α : Type} :
    ∀ (bs : List Bool) (l : List α), bs.length < l.length →
      keepBy (bs ++ [true]) l = keepBy bs l
  | [], [], h => by simp at h
  | [], x :: xs, _ => by simp [keepBy]
  | b :: bs, [], h => by simp at h
  | b :: bs, x :: xs, h => by
    cases b <;> simp only [List.cons_append, keepBy, List.append_eq] <;>
      rw [keepBy_snoc_true bs xs (by simpa using h)]

theorem cntT_snoc (bs : List Bool) (b : Bool) :
    cntT (bs ++ [b]) = cntT bs + (if b then 1 else 0) := by
  cases b <;> simp [cntT, List.countP_append, List.countP_cons]

theorem cntF_snoc (bs : List Bool) (b : Bool) :
    cntF (bs ++ [b]) = cntF bs + (if b then 0 else 1) := by
  cases b <;> simp [cntF, List.countP_append, List.countP_cons]

theorem keepBy_snoc_false {α : Type} :
    ∀ (bs : List Bool) (l : List α), bs.length < l.length →
      keepBy (bs ++ [false]) l = (keepBy bs l).eraseIdx (cntT bs)
  | [], [], h => by simp at h
  | [], x :: xs, _ => by simp [keepBy, cntT, List.eraseIdx]
  | b :: bs, [], h => by simp at h
  | b :: bs, x :: xs, h => by
    cases b
    · simp only [List.cons_append, keepBy, List.append_eq]
      rw [keepBy_snoc_false bs xs (by simpa using h)]
      simp [cntT, List.countP_cons]
    · simp only [List.cons_append, keepBy, List.append_eq]
      rw [keepBy_snoc_false bs xs (by simpa using h)]
      simp [cntT, List.countP_cons, List.eraseIdx]

/-- Description of the state of the node-removal loop after the first `i`
indices have been processed. -/
def P1Desc (used : List Bool) (N0 : List Node) (P0 E0 : List (List Nat))
    (M0 : Nat) (i : Nat) (s : PruneSt) : Prop :=
  s.deleted = cntF (used.take i) ∧
  s.nodes = keepBy (used.take i) N0 ∧
  s.prevE = keepBy (used.take i) P0 ∧
  s.nextE = keepBy (used.take i) E0 ∧
  s.mapping.length = M0 ∧
  (∀ k, (h : k < M0) → s.mapping[k]? =
    some (if k < i ∧ (used[k]?).getD false = true then some (cntT (used.take k)) else none))

theorem take_succ_getElem {α : Type} (l : List α) (i : Nat) (h : i < l.length) :
    l.take (i + 1) = l.take i ++ [l[i]] := by
  rw [List.take_succ, List.getElem?_eq_getElem h]
  rfl

theorem pruneNodeStep_desc (used : List Bool) (N0 : List Node)
    (P0 E0 : List (List Nat)) (M0 : Nat) (i : Nat) (s s1 : PruneSt)
    (hlN : used.length ≤ N0.length) (hlP : used.length ≤ P0.length)
    (hlE : used.length ≤ E0.length) (hi : i < used.length)
    (hstep : pruneNodeStep used s i = some s1)
    (hdesc : P1Desc used N0 P0 E0 M0 i s) :
    P1Desc used N0 P0 E0 M0 (i + 1) s1 := by
  obtain ⟨hdel, hnodes, hprev, hnext, hmlen, hmap⟩ := hdesc
  have hgu : used[i]? = some (used[i]) := List.getElem?_eq_getElem hi
  have hcntl : (used.take i).length = i := by simp; omega
  have hcnti : cntT (used.take i) + cntF (used.take i) = i := by
    have := cnt_sum (used.take i)
    omega
  unfold pruneNodeStep at hstep
  split at hstep
  · exact absurd hstep (by simp)
  · next hfalse =>
    have hb : used[i] = false := by
      rw [hgu] at hfalse
      exact Option.some.inj hfalse
    have htk : used.take (i + 1) = used.take i ++ [false] := by
      rw [take_succ_getElem used i hi, hb]
    split at hstep
    · next hcond =>
      have hs1 : s1 = { s with
          nodes := s.nodes.eraseIdx (i - s.deleted),
          prevE := s.prevE.eraseIdx (i - s.deleted),
          nextE := s.nextE.eraseIdx (i - s.deleted),
          deleted := s.deleted + 1 } := (Option.some.inj hstep).symm
      subst hs1
      have hidx : i - s.deleted = cntT (used.take i) := by
        rw [hdel]
        omega
      refine ⟨?_, ?_, ?_, ?_, hmlen, ?_⟩
      · show s.deleted + 1 = cntF (used.take (i + 1))
        rw [htk, cntF_snoc]
        simp [hdel]
      · show s.nodes.eraseIdx (i - s.deleted) = keepBy (used.take (i + 1)) N0
        rw [htk, keepBy_snoc_false _ _ (by omega), hnodes, hidx]
      · show s.prevE.eraseIdx (i - s.deleted) = keepBy (used.take (i + 1)) P0
        rw [htk, keepBy_snoc_false _ _ (by omega), hprev, hidx]
      · show s.nextE.eraseIdx (i - s.deleted) = keepBy (used.take (i + 1)) E0
        rw [htk, keepBy_snoc_false _ _ (by omega), hnext, hidx]
      · intro k hk
        rw [hmap k hk]
        congr 1
        by_cases hki : k = i
        · subst hki
          rw [hgu]
          simp [hb]
        · have heq : (k < i ∧ (used[k]?).getD false = true) ↔
              (k < i + 1 ∧ (used[k]?).getD false = true) := by
            constructor
            · exact fun h => ⟨by omega, h.2⟩
            · exact fun h => ⟨by
                rcases Nat.lt_succ_iff_lt_or_eq.mp h.1 with h1 | h1
                · exact h1
                · exact absurd h1 hki, h.2⟩
          simp only [heq]
    · exact absurd hstep (by simp)
  · next htrue =>
    have hb : used[i] = true := by
      rw [hgu] at htrue
      exact Option.some.inj htrue
    have htk : used.take (i + 1) = used.take i ++ [true] := by
      rw [take_succ_getElem used i hi, hb]
    split at hstep
    · next hmlt =>
      split at hstep
      · next rp rn hrp hrn =>
        split at hstep
        · exact absurd hstep (by simp)
        · next eu1 heu1 =>
          split at hstep
          · exact absurd hstep (by simp)
          · next eu2 heu2 =>
            have hs1 : s1 = { s with
                mapping := s.mapping.set i (some (i - s.deleted)),
                edgeUsed := eu2 } := (Option.some.inj hstep).symm
            subst hs1
            have hidx : i - s.deleted = cntT (used.take i) := by
              rw [hdel]
              omega
            refine ⟨?_, ?_, ?_, ?_, by simpa using hmlen, ?_⟩
            · show s.deleted = cntF (used.take (i + 1))
              rw [htk, cntF_snoc]
              simp [hdel]
            · show s.nodes = keepBy (used.take (i + 1)) N0
              rw [htk, keepBy_snoc_true _ _ (by omega)]
              exact hnodes
            · show s.prevE = keepBy (used.take (i + 1)) P0
              rw [htk, keepBy_snoc_true _ _ (by omega)]
              exact hprev
            · show s.nextE = keepBy (used.take (i + 1)) E0
              rw [htk, keepBy_snoc_true _ _ (by omega)]
              exact hnext
            · intro k hk
              by_cases hki : k = i
              · subst hki
                rw [List.getElem?_set_self (by omega)]
                rw [hidx]
                congr 1
                rw [if_pos ⟨by omega, by rw [hgu]; simpa using hb⟩]
              · rw [List.getElem?_set_ne (fun h => hki h.symm)]
                rw [hmap k hk]
                congr 1
                have heq : (k < i ∧ (used[k]?).getD false = true) ↔
                    (k < i + 1 ∧ (used[k]?).getD false = true) := by
                  constructor
                  · exact fun h => ⟨by omega, h.2⟩
                  · exact fun h => ⟨by
                      rcases Nat.lt_succ_iff_lt_or_eq.mp h.1 with h1 | h1
                      · exact h1
                      · exact absurd h1 hki, h.2⟩
                simp only [heq]
      · exact absurd hstep (by simp)
    · exact absurd hstep (by simp)

theorem pruneNodesGo_desc (used : List Bool) (N0 : List Node)
    (P0 E0 : List (List Nat)) (M0 : Nat) :
    ∀ (k i : Nat) (s s' : PruneSt),
      used.length ≤ N0.length → used.length ≤ P0.length → used.length ≤ E0.length →
      i + k = used.length →
      pruneNodesGo used (List.range' i k) s = some s' →
      P1Desc used N0 P0 E0 M0 i s → P1Desc used N0 P0 E0 M0 (i + k) s'
  | 0, i, s, s', _, _, _, _, hgo, hdesc => by
    simp only [List.range', pruneNodesGo] at hgo
    rw [← Option.some.inj hgo]
    simpa using hdesc
  | k + 1, i, s, s', hlN, hlP, hlE, hik, hgo, hdesc => by
    simp only [List.range', pruneNodesGo] at hgo
    split at hgo
    · next s1 hstep =>
      have hdesc1 := pruneNodeStep_desc used N0 P0 E0 M0 i s s1 hlN hlP hlE
        (by omega) hstep hdesc
      have := pruneNodesGo_desc used N0 P0 E0 M0 k (i + 1) s1 s' hlN hlP hlE
        (by omega) hgo hdesc1
      rw [show i + (k + 1) = i + 1 + k by omega]
      exact this
    · exact absurd hgo (by simp)

theorem keepBy_nil {α : Type} (l : List α) : keepBy [] l = l := by
  cases l <;> rfl

theorem buildNodeUsed_spec :
    ∀ (len : Nat) (plan : List Nat) (u u' : List Bool),
      buildNodeUsed len plan u = some u' →
      u'.length = u.length ∧ (∀ i ∈ plan, i < u.length) ∧
      (∀ k, k < u.length → (u'[k]? = some true ↔ (u[k]? = some true ∨ k ∈ plan)))
  | len, [], u, u', h => by
    simp only [buildNodeUsed] at h
    rw [← Option.some.inj h]
    exact ⟨rfl, by simp, fun k hk => by simp⟩
  | len, i :: rest, u, u', h => by
    simp only [buildNodeUsed] at h
    split at h
    · next hi =>
      obtain ⟨h1, h2, h3⟩ := buildNodeUsed_spec len rest (u.set i true) u' h
      refine ⟨by simpa using h1, ?_, ?_⟩
      · intro j hj
        rcases List.mem_cons.mp hj with hj | hj
        · subst hj
          exact hi
        · have := h2 j hj
          simpa using this
      · intro k hk
        have hk' : k < (u.set i true).length := by simpa using hk
        rw [h3 k hk']
        by_cases hki : k = i
        · subst hki
          rw [List.getElem?_set_self hk]
          simp [List.mem_cons]
        · rw [List.getElem?_set_ne (fun hc => hki hc.symm)]
          simp only [List.mem_cons]
          constructor
          · rintro (h | h)
            · exact Or.inl h
            · exact Or.inr (Or.inr h)
          · rintro (h | h | h)
            · exact Or.inl h
            · exact absurd h hki
            · exact Or.inr h
    · exact absurd h (by simp)

theorem mapM_option_spec {α β : Type} (f : α → Option β) :
    ∀ (l : List α) (l' : List β), l.mapM f = some l' →
      l'.length = l.length ∧
      ∀ k, (h : k < l.length) → ∃ y, f (l[k]) = some y ∧ l'[k]? = some y
  | [], l', h => by
    simp only [List.mapM_nil] at h
    have hl : l' = [] := by
      cases l' with
      | nil => rfl
      | cons x xs => simp at h
    subst hl
    exact ⟨rfl, fun k hk => absurd hk (by simp)⟩
  | x :: xs, l', h => by
    rw [List.mapM_cons] at h
    cases hfx : f x with
    | none => rw [hfx] at h; simp at h
    | some y =>
      rw [hfx] at h
      cases hrest : xs.mapM f with
      | none => rw [hrest] at h; simp at h
      | some ys =>
        rw [hrest] at h
        simp only [Option.bind_some, Option.bind_eq_bind] at h
        have hl : l' = y :: ys := by
          have := Option.some.inj (by simpa using h)
          exact this.symm
        subst hl
        obtain ⟨ih1, ih2⟩ := mapM_option_spec f xs ys hrest
        refine ⟨by simp [ih1], ?_⟩
        intro k hk
        match k with
        | 0 => exact ⟨y, hfx, by simp⟩
        | k + 1 =>
          obtain ⟨z, hz1, hz2⟩ := ih2 k (by simpa using hk)
          exact ⟨z, by simpa using hz1, by simpa using hz2⟩

theorem cntT_cons (b : Bool) (bs : List Bool) :
    cntT (b :: bs) = cntT bs + (if b then 1 else 0) := by
  cases b <;> simp [cntT, List.countP_cons]

theorem keepBy_getElem {α : Type} :
    ∀ (bs : List Bool) (l : List α) (i : Nat),
      bs.length ≤ l.length → bs[i]? = some true →
      (keepBy bs l)[cntT (bs.take i)]? = l[i]?
  | [], _, i, _, hb => by simp at hb
  | b :: bs, [], i, hlen, _ => by simp at hlen
  | b :: bs, x :: xs, 0, hlen, hb => by
    have hbt : b = true := by simpa using hb
    subst hbt
    simp [keepBy, cntT]
  | b :: bs, x :: xs, i + 1, hlen, hb => by
    have hb' : bs[i]? = some true := by simpa using hb
    have hlen' : bs.length ≤ xs.length := by simpa using hlen
    have ih := keepBy_getElem bs xs i hlen' hb'
    cases b
    · simpa [keepBy, cntT, List.countP_cons] using ih
    · simpa [keepBy, cntT, List.countP_cons] using ih

theorem keepBy_surj {α : Type} :
    ∀ (bs : List Bool) (l : List α) (j : Nat),
      bs.length = l.length → j < (keepBy bs l).length →
      ∃ i, i < bs.length ∧ bs[i]? = some true ∧ cntT (bs.take i) = j ∧
        (keepBy bs l)[j]? = l[i]?
  | [], l, j, hlen, hj => by
    rw [keepBy_nil] at hj
    simp at hlen
    omega
  | b :: bs, [], j, hlen, hj => by simp at hlen
  | true :: bs, x :: xs, 0, hlen, hj => by
    exact ⟨0, by simp, by simp, by simp [cntT], by simp [keepBy]⟩
  | true :: bs, x :: xs, j + 1, hlen, hj => by
    have hj' : j < (keepBy bs xs).length := by
      have : keepBy (true :: bs) (x :: xs) = x :: keepBy bs xs := rfl
      rw [this] at hj
      simpa using hj
    obtain ⟨i, hi1, hi2, hi3, hi4⟩ := keepBy_surj bs xs j (by simpa using hlen) hj'
    refine ⟨i + 1, by simpa using hi1, by simpa using hi2, ?_, ?_⟩
    · rw [List.take_succ_cons, cntT_cons, hi3]
      simp
    · have : keepBy (true :: bs) (x :: xs) = x :: keepBy bs xs := rfl
      rw [this]
      simpa using hi4
  | false :: bs, x :: xs, j, hlen, hj => by
    have hkb : keepBy (false :: bs) (x :: xs) = keepBy bs xs := rfl
    rw [hkb] at hj
    obtain ⟨i, hi1, hi2, hi3, hi4⟩ := keepBy_surj bs xs j (by simpa using hlen) hj
    refine ⟨i + 1, by simpa using hi1, by simpa using hi2, ?_, ?_⟩
    · rw [List.take_succ_cons, cntT_cons, hi3]
      simp
    · rw [hkb]
      simpa using hi4

theorem remapNode_eq (mapping : List (Option Nat)) (n : Node) (j : Nat)
    (hid : (mapping[n.id]?).join = some j) :
    remapNode mapping n =
      (n.inputs.mapM (fun p => ((mapping[p.fst]?).join).map (fun q => (q, p.snd)))).map
        (fun newInputs => { n with id := j, inputs := newInputs }) := by
  unfold remapNode
  rw [hid]
  cases n.inputs.mapM (fun p => ((mapping[p.fst]?).join).map (fun q => (q, p.snd))) <;> rfl

/-- Claim C3: when `prune_unused` succeeds on an analyser whose node ids equal
their positions (as `new` builds them), every planned node `i` gets
`node_mapping[i] = Some j`; the node stored at position `j` afterwards has
`id = j`, the `name` and `op_name` it had before, and its input producer ids
rewritten through the mapping; and afterwards every node's id equals its
position in the node vector. -/
theorem C3_prune_unused (a a' : Analyser) (m : List (Option Nat))
    (hids : ∀ (k : Nat) (nd : Node), a.nodes[k]? = some nd → nd.id = k)
    (hP : a.nodes.length ≤ a.prev_edges.length)
    (hE : a.nodes.length ≤ a.next_edges.length)
    (hprune : a.prune_unused = some (a', m)) :
    (∀ i ∈ a.plan, ∃ (j : Nat) (nd nd' : Node),
        m[i]? = some (some j) ∧ a.nodes[i]? = some nd ∧ a'.nodes[j]? = some nd' ∧
        nd'.id = j ∧ nd'.name = nd.name ∧ nd'.op_name = nd.op_name ∧
        nd.inputs.mapM
          (fun p => ((m[p.fst]?).join).map (fun q => (q, p.snd))) = some nd'.inputs) ∧
    (∀ (j : Nat) (nd' : Node), a'.nodes[j]? = some nd' → nd'.id = j) := by
  unfold Analyser.prune_unused at hprune
  split at hprune
  · exact absurd hprune (by simp)
  · next used hused =>
    split at hprune
    · exact absurd hprune (by simp)
    · next s1 hgo =>
      split at hprune
      · exact absurd hprune (by simp)
      · next nodes2 hnodes2 =>
        split at hprune
        · exact absurd hprune (by simp)
        · next edges2 hedges2 =>
          split at hprune
          · exact absurd hprune (by simp)
          · next edges3 mid emap hpe =>
            split at hprune
            · exact absurd hprune (by simp)
            · next prevE2 hprev2 =>
              split at hprune
              · exact absurd hprune (by simp)
              · next nextE2 hnext2 =>
                have hpair := Option.some.inj hprune
                have hA2 : a'.nodes = nodes2 :=
                  congrArg (fun p => (Prod.fst p).nodes) hpair.symm
                have hm2 : m = s1.mapping := (congrArg Prod.snd hpair).symm
                obtain ⟨hul, hplan_lt, hub⟩ :=
                  buildNodeUsed_spec a.nodes.length a.plan _ used hused
                have hulN : used.length = a.nodes.length := by simpa using hul
                have hplan : ∀ i ∈ a.plan, i < a.nodes.length := by
                  intro i hi
                  have := hplan_lt i hi
                  simpa using this
                have hmem : ∀ k, k < a.nodes.length → (used[k]? = some true ↔ k ∈ a.plan) := by
                  intro k hk
                  have := hub k (by simpa using hk)
                  simpa [List.getElem?_replicate] using this
                have hinit : P1Desc used a.nodes a.prev_edges a.next_edges a.nodes.length 0
                    { nodes := a.nodes, prevE := a.prev_edges, nextE := a.next_edges,
                      deleted := 0, mapping := List.replicate a.nodes.length none,
                      edgeUsed := List.replicate a.edges.length false } := by
                  refine ⟨by simp [cntF], by simp [keepBy_nil], by simp [keepBy_nil],
                    by simp [keepBy_nil], by simp, ?_⟩
                  intro k hk
                  simp [List.getElem?_replicate, hk]
                rw [List.range_eq_range'] at hgo
                have hfin := pruneNodesGo_desc used a.nodes a.prev_edges a.next_edges
                  a.nodes.length a.nodes.length 0 _ s1 (by omega) (by omega) (by omega)
                  (by omega) hgo hinit
                simp only [Nat.zero_add] at hfin
                obtain ⟨hdel, hN, hPr, hNx, hml, hmp⟩ := hfin
                rw [← hulN, List.take_length] at hN
                obtain ⟨hn2l, hn2⟩ := mapM_option_spec (remapNode s1.mapping) s1.nodes nodes2 hnodes2
                refine ⟨?_, ?_⟩
                · intro i hi
                  have hiN : i < a.nodes.length := hplan i hi
                  have hused_i : used[i]? = some true := (hmem i hiN).mpr hi
                  have hmi : s1.mapping[i]? = some (some (cntT (used.take i))) := by
                    rw [hmp i hiN]
                    rw [if_pos ⟨hiN, by rw [hused_i]; rfl⟩]
                  have hkeep := keepBy_getElem used a.nodes i (by omega) hused_i
                  rw [← hN] at hkeep
                  have hgi : a.nodes[i]? = some (a.nodes[i]) :=
                    List.getElem?_eq_getElem hiN
                  have hjlt : cntT (used.take i) < s1.nodes.length := by
                    by_contra hc
                    rw [List.getElem?_eq_none (by omega), hgi] at hkeep
                    exact absurd hkeep (by simp)
                  obtain ⟨y, hy1, hy2⟩ := hn2 (cntT (used.take i)) hjlt
                  have hsj : s1.nodes[cntT (used.take i)] = a.nodes[i] := by
                    have h1 := List.getElem?_eq_getElem hjlt
                    rw [hkeep, hgi] at h1
                    exact (Option.some.inj h1).symm
                  have hid : (a.nodes[i]).id = i := hids i _ hgi
                  have hid_join :
                      (s1.mapping[(a.nodes[i]).id]?).join = some (cntT (used.take i)) := by
                    rw [hid, hmi]
                    rfl
                  rw [hsj, remapNode_eq s1.mapping _ _ hid_join] at hy1
                  cases hmm : (a.nodes[i]).inputs.mapM
                      (fun p => ((s1.mapping[p.fst]?).join).map (fun q => (q, p.snd))) with
                  | none =>
                    rw [hmm] at hy1
                    exact absurd hy1 (by simp)
                  | some newInputs =>
                    rw [hmm] at hy1
                    have hy : y = { a.nodes[i] with
                        id := cntT (used.take i), inputs := newInputs } := by
                      have := Option.some.inj (by simpa using hy1)
                      exact this.symm
                    refine ⟨cntT (used.take i), a.nodes[i], y, ?_, hgi, ?_, ?_, ?_, ?_, ?_⟩
                    · rw [hm2]
                      exact hmi
                    · rw [hA2]
                      exact hy2
                    · rw [hy]
                    · rw [hy]
                    · rw [hy]
                    · rw [hm2, hy]
                      exact hmm
                · intro j nd' hj
                  rw [hA2] at hj
                  have hjn : j < nodes2.length := by
                    by_contra hc
                    rw [List.getElem?_eq_none (by omega)] at hj
                    exact absurd hj (by simp)
                  have hjs : j < s1.nodes.length := by omega
                  obtain ⟨i, hiu, hitrue, hcnt, hkeep⟩ :=
                    keepBy_surj used a.nodes j hulN (by rw [← hN]; exact hjs)
                  have hiN : i < a.nodes.length := by omega
                  have hmi : s1.mapping[i]? = some (some j) := by
                    rw [hmp i hiN]
                    rw [if_pos ⟨hiN, by rw [hitrue]; rfl⟩, hcnt]
                  obtain ⟨y, hy1, hy2⟩ := hn2 j hjs
                  have hgi : a.nodes[i]? = some (a.nodes[i]) :=
                    List.getElem?_eq_getElem hiN
                  have hsj : s1.nodes[j] = a.nodes[i] := by
                    have h1 := List.getElem?_eq_getElem hjs
                    rw [← hN] at hkeep
                    rw [hkeep, hgi] at h1
                    exact (Option.some.inj h1).symm
                  have hid : (a.nodes[i]).id = i := hids i _ hgi
                  have hid_join : (s1.mapping[(a.nodes[i]).id]?).join = some j := by
                    rw [hid, hmi]
                    rfl
                  rw [hsj, remapNode_eq s1.mapping _ _ hid_join] at hy1
                  cases hmm : (a.nodes[i]).inputs.mapM
                      (fun p => ((s1.mapping[p.fst]?).join).map (fun q => (q, p.snd))) with
                  | none =>
                    rw [hmm] at hy1
                    exact absurd hy1 (by simp)
                  | some newInputs =>
                    rw [hmm] at hy1
                    have hy : y = { a.nodes[i] with id := j, inputs := newInputs } := by
                      have := Option.some.inj (by simpa using hy1)
                      exact this.symm
                    have hnd' : nd' = y := by
                      rw [hy2] at hj
                      exact (Option.some.inj hj).symm
                    rw [hnd', hy]

/-- Witness for claim C3: on the concrete four-node analyser `a4`, whose node
ids equal their positions, pruning yields a node vector whose ids again equal
their positions. -/
theorem C3_witness :
    (∀ (k : Nat) (nd : Node), a4.nodes[k]? = some nd → nd.id = k) ∧
    (∀ (j : Nat) (nd' : Node), prunedPair4.1.nodes[j]? = some nd' → nd'.id = j) := by
  have hids : ∀ (k : Nat) (nd : Node), a4.nodes[k]? = some nd → nd.id = k := by
    intro k nd h
    have hlen : a4.nodes.length = 4 := by decide
    have hk : k < 4 := by
      by_contra hc
      rw [List.getElem?_eq_none (by omega)] at h
      exact absurd h (by simp)
    have hsome : a4.nodes[k]? = some (a4.nodes[k]) :=
      List.getElem?_eq_getElem (by omega)
    rw [hsome] at h
    have hnd : nd = a4.nodes[k] := (Option.some.inj h).symm
    rw [hnd]
    interval_cases k <;> rfl
  exact ⟨hids,
    (C3_prune_unused a4 prunedPair4.1 prunedPair4.2 hids (by decide) (by decide) rfl).2⟩

/-! Claim C4: convergence of `run`.  The open-shape fragment of the fact
lattice has infinite strictly descending chains (`open[]`, `open[Any]`,
`open[Any,Any]`, ...), so a monotone operator that keeps extending an open
shape makes `run` sweep forever; boundedness of the ranks involved restores
termination. -/

/-- The refinement order on operator results, lifted from `factLe`. -/
def InferResLe : Except Unit (Option (List TensorFact)) →
    Except Unit (Option (List TensorFact)) → Prop
  | .ok (some xs), .ok (some ys) => List.Forall₂ factLe xs ys
  | .ok none, .ok none => True
  | .error _, .error _ => True
  | _, _ => False

/-- A monotone operator: refined inputs lead to refined outputs, in both
directions. -/
def OpMonotone (op : Op) : Prop :=
  ∀ xs ys, List.Forall₂ factLe xs ys →
    InferResLe (op.infer_forward xs) (op.infer_forward ys) ∧
    InferResLe (op.infer_backward xs) (op.infer_backward ys)

/-- Appends one unknown dimension to a fact's shape, keeping its open flag. -/
def growTF (f : TensorFact) : TensorFact :=
  { f with shape := ⟨f.shape.isOpen, f.shape.dims ++ [DimFact.Any]⟩ }

/-- A monotone operator that keeps learning one more unknown dimension: its
forward inference extends its input's shape by one open dimension and its
backward inference propagates its source fact unchanged. -/
def growOp : Op :=
  { infer_forward := fun xs => .ok (some [growTF (xs.headD TensorFact.new)]),
    infer_backward := fun xs => .ok (some [xs.headD TensorFact.new]) }

/-- The source node of the diverging model. -/
def growSrcNode : Node :=
  { id := 0, name := "src", op_name := "Source", op := nullOp, inputs := [] }

/-- The growing node of the diverging model. -/
def growGrowNode : Node :=
  { id := 1, name := "g", op_name := "Grow", op := growOp, inputs := [(0, none)] }

/-- A two-node model: a source feeding a growing operator. -/
def growModel : Model := ⟨[growSrcNode, growGrowNode]⟩

/-- The completely open fact with `k` unknown dimensions. -/
def anyFact (k : Nat) : TensorFact :=
  { datatype := .Any, shape := ⟨true, List.replicate k .Any⟩, value := .Any }

/-- The inner edge of the diverging analyser after `k` refinements. -/
def growEdge0 (k : Nat) : Edge :=
  { id := 0, from_node := some 0, from_out := 0, to_node := some 1,
    fact := anyFact k }

/-- The synthetic output edge of the diverging analyser after `k`
refinements. -/
def growEdge1 (k : Nat) : Edge :=
  { id := 1, from_node := some 1, from_out := 0, to_node := none,
    fact := anyFact k }

/-- The diverging analyser at pass counter `p` after `k` sweeps. -/
def growStateP (p k : Nat) : Analyser :=
  { output := 1,
    nodes := growModel.nodes,
    edges := [growEdge0 k, growEdge1 k],
    prev_edges := [[], [0], []],
    next_edges := [[0], [1], []],
    plan := [0, 1],
    current_pass := p,
    current_step := 0,
    current_direction := true }

theorem unify_dims_replicate : ∀ m n : Nat,
    unify_dims (List.replicate m DimFact.Any) (List.replicate n DimFact.Any) true true =
      some (List.replicate (max m n) DimFact.Any)
  | 0, n => by
    simp [unify_dims, unify_tail_true]
  | m + 1, 0 => by
    simp only [List.replicate_succ, List.replicate]
    simp [unify_dims, unify_tail, unify_tail_true]
  | m + 1, n + 1 => by
    simp only [List.replicate_succ, unify_dims, unify_dim]
    rw [unify_dims_replicate m n]
    simp [Nat.succ_max_succ, List.replicate_succ]

theorem unify_anyFact (j k : Nat) :
    unify (anyFact j) (anyFact k) = some (anyFact (max j k)) := by
  unfold unify anyFact
  simp only [unify_datatype, unify_value, unify_shape]
  rw [unify_dims_replicate j k]
  rfl

theorem growTF_anyFact (k : Nat) : growTF (anyFact k) = anyFact (k + 1) := by
  unfold growTF anyFact
  simp [List.replicate_succ']

theorem anyFact_ne (k : Nat) : ¬ (anyFact (k + 1) = anyFact k) := by
  intro h
  have := congrArg (fun f => f.shape.dims.length) h
  simp [anyFact] at this

/-- Forward step at the source node: nothing inferred. -/
theorem growStep1 (p k : Nat) :
    (growStateP p k).run_step =
      ({ growStateP p k with current_step := 1 }, .ok false) := rfl

theorem growEdge1_fact (k : Nat) : (growEdge1 k).fact = anyFact k := rfl

theorem growEdge0_fact (k : Nat) : (growEdge0 k).fact = anyFact k := rfl

/-- Forward step at the growing node: the output edge fact gains a dimension. -/
theorem growStep2 (p k : Nat) :
    ({ growStateP p k with current_step := 1 } : Analyser).run_step =
      ({ growStateP p k with
          edges := [growEdge0 k, growEdge1 (k + 1)],
          current_pass := p + 1, current_step := 0, current_direction := false },
        .ok true) := by
  have hmax : max (k + 1) k = k + 1 := by omega
  have hu : unify (anyFact (k + 1)) (anyFact k) = some (anyFact (k + 1)) := by
    rw [unify_anyFact, hmax]
  have hinf : growOp.infer_forward [anyFact k] = .ok (some [anyFact (k + 1)]) := by
    show Except.ok (some [growTF (anyFact k)]) = _
    rw [growTF_anyFact]
  have hloop : tryStepLoop true [anyFact (k + 1)] [1] 0 [growEdge0 k, growEdge1 k] false =
      ([growEdge0 k, growEdge1 (k + 1)], .ok true) := by
    simp only [tryStepLoop, if_true, List.length_cons, List.length_nil,
      List.getElem?_cons_zero, List.getElem?_cons_succ, growEdge1_fact, hu,
      lt_self_iff_false, if_false]
    rw [if_neg (anyFact_ne k)]
    rfl
  have hts := try_step_eq ({ growStateP p k with current_step := 1 }) 1 growGrowNode
    [0] [1] [anyFact k] [anyFact (k + 1)] rfl rfl rfl rfl hinf rfl
  unfold Analyser.run_step
  rw [hts]
  rw [show ({ growStateP p k with current_step := 1 } : Analyser).current_direction = true
    from rfl]
  rw [show ({ growStateP p k with current_step := 1 } : Analyser).edges =
    [growEdge0 k, growEdge1 k] from rfl]
  rw [hloop]
  rfl

/-- Backward step at the growing node: the inner edge fact gains a dimension. -/
theorem growStep3 (p k : Nat) :
    ({ growStateP p k with
        edges := [growEdge0 k, growEdge1 (k + 1)],
        current_pass := p + 1, current_step := 0,
        current_direction := false } : Analyser).run_step =
      ({ growStateP p k with
          edges := [growEdge0 (k + 1), growEdge1 (k + 1)],
          current_pass := p + 1, current_step := 1, current_direction := false },
        .ok true) := by
  have hmax : max (k + 1) k = k + 1 := by omega
  have hu : unify (anyFact (k + 1)) (anyFact k) = some (anyFact (k + 1)) := by
    rw [unify_anyFact, hmax]
  have hloop : tryStepLoop false [anyFact (k + 1)] [0] 0
      [growEdge0 k, growEdge1 (k + 1)] false =
      ([growEdge0 (k + 1), growEdge1 (k + 1)], .ok true) := by
    simp only [tryStepLoop, Bool.false_eq_true, if_false, List.getElem?_cons_zero,
      growEdge0_fact, hu]
    rw [if_neg (anyFact_ne k)]
    rfl
  have hts := try_step_eq ({ growStateP p k with
      edges := [growEdge0 k, growEdge1 (k + 1)],
      current_pass := p + 1, current_step := 0, current_direction := false }) 1
    growGrowNode [1] [0] [anyFact (k + 1)] [anyFact (k + 1)] rfl rfl rfl rfl rfl rfl
  unfold Analyser.run_step
  rw [hts]
  rw [show ({ growStateP p k with
      edges := [growEdge0 k, growEdge1 (k + 1)],
      current_pass := p + 1, current_step := 0,
      current_direction := false } : Analyser).current_direction = false from rfl]
  rw [show ({ growStateP p k with
      edges := [growEdge0 k, growEdge1 (k + 1)],
      current_pass := p + 1, current_step := 0,
      current_direction := false } : Analyser).edges =
    [growEdge0 k, growEdge1 (k + 1)] from rfl]
  rw [hloop]
  rfl

/-- Backward step at the source node: nothing inferred, the sweep ends. -/
theorem growStep4 (p k : Nat) :
    ({ growStateP p k with
        edges := [growEdge0 (k + 1), growEdge1 (k + 1)],
        current_pass := p + 1, current_step := 1,
        current_direction := false } : Analyser).run_step =
      (growStateP (p + 2) (k + 1), .ok false) := rfl

/-- One full sweep of `run_two_passes` on the diverging analyser: the edge
facts gain one dimension and the sweep reports a change. -/
theorem growSweep (p k : Nat) :
    (growStateP p k).run_two_passes = (growStateP (p + 2) (k + 1), .ok true) := by
  have h1 : stepsLoop 2 (growStateP p k) false =
      ({ growStateP p k with
          edges := [growEdge0 k, growEdge1 (k + 1)],
          current_pass := p + 1, current_step := 0,
          current_direction := false }, .ok true) := by
    show (match (growStateP p k).run_step with
          | (a', .ok ch) => stepsLoop 1 a' (false || ch)
          | (a', r) => (a', r)) = _
    rw [growStep1]
    show (match ({ growStateP p k with current_step := 1 } : Analyser).run_step with
          | (a', .ok ch) => stepsLoop 0 a' (false || false || ch)
          | (a', r) => (a', r)) = _
    rw [growStep2]
    rfl
  have h2 : stepsLoop 2 ({ growStateP p k with
      edges := [growEdge0 k, growEdge1 (k + 1)],
      current_pass := p + 1, current_step := 0,
      current_direction := false } : Analyser) true =
      (growStateP (p + 2) (k + 1), .ok true) := by
    show (match ({ growStateP p k with
          edges := [growEdge0 k, growEdge1 (k + 1)],
          current_pass := p + 1, current_step := 0,
          current_direction := false } : Analyser).run_step with
          | (a', .ok ch) => stepsLoop 1 a' (true || ch)
          | (a', r) => (a', r)) = _
    rw [growStep3]
    show (match ({ growStateP p k with
          edges := [growEdge0 (k + 1), growEdge1 (k + 1)],
          current_pass := p + 1, current_step := 1,
          current_direction := false } : Analyser).run_step with
          | (a', .ok ch) => stepsLoop 0 a' (true || true || ch)
          | (a', r) => (a', r)) = _
    rw [growStep4]
    rfl
  show (match stepsLoop 2 (growStateP p k) false with
        | (a1, .ok c1) =>
          stepsLoop ({ a1 with current_step := 0 } : Analyser).plan.length
            { a1 with current_step := 0 } c1
        | (a1, r) => (a1, r)) = _
  rw [h1]
  show stepsLoop 2 ({ growStateP p k with
      edges := [growEdge0 k, growEdge1 (k + 1)],
      current_pass := p + 1, current_step := 0,
      current_direction := false } : Analyser) true = _
  exact h2

/-- The diverging analyser exhausts any amount of fuel. -/
theorem growRunFuel_none : ∀ (fuel p k : Nat), runFuel fuel (growStateP p k) = none
  | 0, _, _ => rfl
  | fuel + 1, p, k => by
    show (match (growStateP p k).run_two_passes with
          | (a', .ok true) => runFuel fuel a'
          | (a', .ok false) => some (a', .ok ())
          | (a', .error) => some (a', .error)
          | (a', .panicked) => some (a', .panicked)) = none
    rw [growSweep]
    exact growRunFuel_none fuel (p + 2) (k + 1)

theorem headD_mono {xs ys : List TensorFact} (h : List.Forall₂ factLe xs ys) :
    factLe (xs.headD TensorFact.new) (ys.headD TensorFact.new) := by
  cases h with
  | nil => exact factLe_refl _
  | cons h1 _ => simpa using h1

theorem shapeLe_snoc_any {s t : ShapeFact} (h : shapeLe s t) :
    shapeLe ⟨s.isOpen, s.dims ++ [DimFact.Any]⟩ ⟨t.isOpen, t.dims ++ [DimFact.Any]⟩ := by
  unfold shapeLe at h ⊢
  cases hto : t.isOpen with
  | true =>
    rw [hto] at h
    simp only [if_true] at h ⊢
    obtain ⟨hlen, hpt⟩ := h
    refine ⟨by simp; omega, ?_⟩
    intro i hi hs
    simp only [List.length_append, List.length_cons, List.length_nil] at hi hs
    rw [List.getElem_append, List.getElem_append]
    by_cases h2 : i < t.dims.length
    · have h3 : i < s.dims.length := by omega
      rw [dif_pos h2, dif_pos h3]
      exact hpt i h2 h3
    · rw [dif_neg h2]
      have h4 : i - t.dims.length = 0 := by omega
      simp only [h4, List.getElem_cons_zero]
      exact dimLe_any _
  | false =>
    rw [hto] at h
    simp only [if_false] at h ⊢
    obtain ⟨hso, hlen, hpt⟩ := h
    refine ⟨hso, by simp [hlen], ?_⟩
    intro i hi hs
    simp only [List.length_append, List.length_cons, List.length_nil] at hi hs
    rw [List.getElem_append, List.getElem_append]
    by_cases h2 : i < t.dims.length
    · have h3 : i < s.dims.length := by omega
      rw [dif_pos h2, dif_pos h3]
      exact hpt i h2 h3
    · rw [dif_neg h2]
      have h4 : i - t.dims.length = 0 := by omega
      simp only [h4, List.getElem_cons_zero]
      exact dimLe_any _

theorem growTF_mono {f g : TensorFact} (h : factLe f g) : factLe (growTF f) (growTF g) := by
  obtain ⟨h1, h2, h3⟩ := h
  exact ⟨h1, shapeLe_snoc_any h2, h3⟩

theorem nullOp_monotone : OpMonotone nullOp :=
  fun _ _ _ => ⟨trivial, trivial⟩

theorem growOp_monotone : OpMonotone growOp := by
  intro xs ys h
  constructor
  · show List.Forall₂ factLe [growTF (xs.headD TensorFact.new)]
      [growTF (ys.headD TensorFact.new)]
    exact List.Forall₂.cons (growTF_mono (headD_mono h)) List.Forall₂.nil
  · show List.Forall₂ factLe [xs.headD TensorFact.new] [ys.headD TensorFact.new]
    exact List.Forall₂.cons (headD_mono h) List.Forall₂.nil

/-- Counterexample to claim C4 as stated: a two-node graph whose operators are
monotone, yet `run` never reaches a sweep without a change — the edge facts
descend forever along the infinite chain of ever-longer open shapes. -/
theorem C4_counterexample :
    (∀ nd ∈ growModel.nodes, OpMonotone nd.op) ∧
    Analyser.new growModel 1 = .ok (growStateP 0 0) ∧
    ∀ fuel, (growStateP 0 0).run fuel = none := by
  refine ⟨?_, rfl, ?_⟩
  · intro nd hnd
    rcases List.mem_cons.mp hnd with h | h
    · rw [h]
      exact nullOp_monotone
    · rcases List.mem_cons.mp h with h | h
      · rw [h]
        exact growOp_monotone
      · simp at h
  · intro fuel
    show runFuel fuel ({ growStateP 0 0 with current_pass := 0 } : Analyser) = none
    exact growRunFuel_none fuel 0 0

/-! The amended convergence statement: when every rank involved is bounded by
some `N`, the refinement order restricted to facts of rank at most `N` has
finite height, measured by the weight below, and `run` converges. -/

/-- Weight of a dimension fact: 1 while still unknown. -/
def measureDim : DimFact → Nat
  | .Any => 1
  | .Only _ => 0

/-- Weight of a dimension list. -/
def measureDims (l : List DimFact) : Nat := (l.map measureDim).sum

/-- Weight of a shape fact under the rank bound `N`: open flag, unknown
dimensions, and room left to grow to rank `N`. -/
def measureShape (N : Nat) (s : ShapeFact) : Nat :=
  (if s.isOpen then 1 else 0) + measureDims s.dims + 2 * (N - s.dims.length)

/-- Weight of a datum type fact. -/
def measureType : TypeFact → Nat
  | .Any => 1
  | .Only _ => 0

/-- Weight of a value fact. -/
def measureValue : ValueFact → Nat
  | .Any => 1
  | .Only _ => 0

/-- Weight of a tensor fact under the rank bound `N`. -/
def measureFact (N : Nat) (f : TensorFact) : Nat :=
  measureType f.datatype + measureShape N f.shape + measureValue f.value

/-- Total weight of the facts of an edge vector. -/
def measureEdges (N : Nat) (edges : List Edge) : Nat :=
  (edges.map (fun e => measureFact N e.fact)).sum

/-- All edge facts have rank at most `N`. -/
def EdgesBounded (N : Nat) (edges : List Edge) : Prop :=
  ∀ e ∈ edges, e.fact.shape.dims.length ≤ N

/-- An operator never infers a fact of rank above `N`. -/
def OpBounded (N : Nat) (op : Op) : Prop :=
  ∀ xs r, (op.infer_forward xs = .ok (some r) → ∀ f ∈ r, f.shape.dims.length ≤ N) ∧
          (op.infer_backward xs = .ok (some r) → ∀ f ∈ r, f.shape.dims.length ≤ N)

theorem measureDim_le_one (d : DimFact) : measureDim d ≤ 1 := by
  cases d <;> simp [measureDim]

theorem dimLe_measure (a b : DimFact) (h : dimLe a b) : measureDim a ≤ measureDim b := by
  rcases h with h | h
  · subst h
    exact measureDim_le_one a
  · subst h
    exact le_refl _

theorem dimLe_measure_lt (a b : DimFact) (h : dimLe a b) (hne : a ≠ b) :
    measureDim a < measureDim b := by
  rcases h with h | h
  · subst h
    cases a with
    | Any => exact absurd rfl hne
    | Only n => simp [measureDim]
  · exact absurd h hne

theorem measureDims_le_length : ∀ l : List DimFact, measureDims l ≤ l.length
  | [] => le_refl _
  | d :: rest => by
    have h1 := measureDim_le_one d
    have h2 := measureDims_le_length rest
    simp only [measureDims, List.map_cons, List.sum_cons, List.length_cons] at *
    omega

theorem measureDims_mono : ∀ (a b : List DimFact),
    b.length ≤ a.length →
    (∀ i, (hi : i < b.length) → (ha : i < a.length) → dimLe (a[i]) (b[i])) →
    measureDims a + b.length ≤ measureDims b + a.length
  | a, [], _, _ => by
    have := measureDims_le_length a
    simp only [measureDims, List.map_nil, List.sum_nil, List.length_nil] at *
    omega
  | [], y :: ys, hlen, _ => by simp at hlen
  | x :: xs, y :: ys, hlen, hpt => by
    have hhead : measureDim x ≤ measureDim y :=
      dimLe_measure x y (hpt 0 (by simp) (by simp))
    have htail := measureDims_mono xs ys (by simpa using hlen)
      (fun i hi ha => by
        have := hpt (i + 1) (by simpa using hi) (by simpa using ha)
        simpa using this)
    simp only [measureDims, List.map_cons, List.sum_cons, List.length_cons] at *
    omega

theorem measureDims_strict : ∀ (a b : List DimFact),
    a.length = b.length →
    (∀ i, (hi : i < b.length) → (ha : i < a.length) → dimLe (a[i]) (b[i])) →
    a ≠ b →
    measureDims a < measureDims b
  | [], [], _, _, hne => absurd rfl hne
  | [], y :: ys, hlen, _, _ => by simp at hlen
  | x :: xs, [], hlen, _, _ => by simp at hlen
  | x :: xs, y :: ys, hlen, hpt, hne => by
    have hhead : dimLe x y := hpt 0 (by simp) (by simp)
    have htail : ∀ i, (hi : i < ys.length) → (ha : i < xs.length) →
        dimLe (xs[i]) (ys[i]) := fun i hi ha => by
      have := hpt (i + 1) (by simpa using hi) (by simpa using ha)
      simpa using this
    by_cases hxy : x = y
    · subst hxy
      have hne2 : xs ≠ ys := fun h => hne (by rw [h])
      have := measureDims_strict xs ys (by simpa using hlen) htail hne2
      simp only [measureDims, List.map_cons, List.sum_cons] at *
      omega
    · have h1 := dimLe_measure_lt x y hhead hxy
      have h2 := measureDims_mono xs ys (by simp at hlen; omega) htail
      simp only [measureDims, List.map_cons, List.sum_cons] at *
      simp at hlen
      omega

theorem shapeLe_measure (N : Nat) (s t : ShapeFact) (h : shapeLe s t)
    (hsN : s.dims.length ≤ N) (htN : t.dims.length ≤ N) :
    measureShape N s ≤ measureShape N t ∧
    (s ≠ t → measureShape N s < measureShape N t) := by
  obtain ⟨so, sd⟩ := s
  obtain ⟨tdo, td⟩ := t
  simp only at hsN htN
  unfold shapeLe at h
  unfold measureShape
  simp only at h ⊢
  cases tdo with
  | true =>
    rw [if_pos rfl] at h
    simp only [if_true]
    obtain ⟨hlen, hpt⟩ := h
    have hmono := measureDims_mono sd td hlen hpt
    cases so with
    | false =>
      simp only [Bool.false_eq_true, if_false]
      constructor
      · omega
      · intro _
        omega
    | true =>
      simp only [if_true]
      by_cases hl : sd.length = td.length
      · by_cases hd : sd = td
        · subst hd
          exact ⟨le_refl _, fun hne => absurd rfl hne⟩
        · have := measureDims_strict sd td hl hpt hd
          exact ⟨by omega, fun _ => by omega⟩
      · have hlt : td.length < sd.length := by omega
        exact ⟨by omega, fun _ => by omega⟩
  | false =>
    rw [if_neg (by simp)] at h
    simp only [Bool.false_eq_true, if_false]
    obtain ⟨hso, hlen, hpt⟩ := h
    subst hso
    simp only [Bool.false_eq_true, if_false]
    have hmono := measureDims_mono sd td (by omega) hpt
    by_cases hd : sd = td
    · subst hd
      exact ⟨le_refl _, fun hne => absurd rfl hne⟩
    · have := measureDims_strict sd td hlen hpt hd
      exact ⟨by omega, fun _ => by omega⟩

theorem typeLe_measure (x y : TypeFact) (h : typeLe x y) :
    measureType x ≤ measureType y ∧ (x ≠ y → measureType x < measureType y) := by
  rcases h with h | h
  · subst h
    cases x with
    | Any => exact ⟨le_refl _, fun hne => absurd rfl hne⟩
    | Only n => exact ⟨by simp [measureType], fun _ => by simp [measureType]⟩
  · subst h
    exact ⟨le_refl _, fun hne => absurd rfl hne⟩

theorem valueLe_measure (x y : ValueFact) (h : valueLe x y) :
    measureValue x ≤ measureValue y ∧ (x ≠ y → measureValue x < measureValue y) := by
  rcases h with h | h
  · subst h
    cases x with
    | Any => exact ⟨le_refl _, fun hne => absurd rfl hne⟩
    | Only n => exact ⟨by simp [measureValue], fun _ => by simp [measureValue]⟩
  · subst h
    exact ⟨le_refl _, fun hne => absurd rfl hne⟩

theorem factLe_measure (N : Nat) (x y : TensorFact) (h : factLe x y)
    (hx : x.shape.dims.length ≤ N) (hy : y.shape.dims.length ≤ N) :
    measureFact N x ≤ measureFact N y ∧
    (x ≠ y → measureFact N x < measureFact N y) := by
  obtain ⟨h1, h2, h3⟩ := h
  have m1 := typeLe_measure _ _ h1
  have m2 := shapeLe_measure N _ _ h2 hx hy
  have m3 := valueLe_measure _ _ h3
  unfold measureFact
  constructor
  · omega
  · intro hne
    obtain ⟨xd, xs, xv⟩ := x
    obtain ⟨yd, ys, yv⟩ := y
    simp only at m1 m2 m3 ⊢
    by_cases e1 : xd = yd
    · by_cases e2 : xs = ys
      · by_cases e3 : xv = yv
        · exact absurd (by rw [e1, e2, e3]) hne
        · have := m3.2 e3
          omega
      · have := m2.2 e2
        omega
    · have := m1.2 e1
      omega

/-- A successful unification cannot increase the rank beyond the bound. -/
theorem unify_rank_le {x y c : TensorFact} (N : Nat) (h : unify x y = some c)
    (hx : x.shape.dims.length ≤ N) (hy : y.shape.dims.length ≤ N) :
    c.shape.dims.length ≤ N := by
  obtain ⟨dt, sh, v, hdt, hsh, hv, rfl⟩ := unify_bind_elim h
  obtain ⟨dims, hd, rfl⟩ := unify_shape_eq hsh
  have := (unify_dims_spec hd).1
  simp only
  omega

theorem measureEdges_set (N : Nat) : ∀ (edges : List Edge) (j : Nat) (e e' : Edge),
    edges[j]? = some e →
    measureEdges N (edges.set j e') + measureFact N e.fact =
      measureEdges N edges + measureFact N e'.fact
  | [], j, e, e', h => by simp at h
  | x :: xs, 0, e, e', h => by
    have hx : x = e := Option.some.inj (by simpa using h)
    subst hx
    simp only [List.set_cons_zero, measureEdges, List.map_cons, List.sum_cons]
    omega
  | x :: xs, j + 1, e, e', h => by
    have hrec := measureEdges_set N xs j e e' (by simpa using h)
    simp only [List.set_cons_succ, measureEdges, List.map_cons, List.sum_cons]
    simp only [measureEdges] at hrec
    omega

theorem edgesBounded_set {N : Nat} {edges : List Edge} {j : Nat} {e' : Edge}
    (hb : EdgesBounded N edges) (he' : e'.fact.shape.dims.length ≤ N) :
    EdgesBounded N (edges.set j e') := by
  intro f hf
  rcases List.mem_or_eq_of_mem_set hf with hf | hf
  · exact hb f hf
  · subst hf
    exact he'

/-- Bounds and measure through the target-edge loop: the facts stay bounded,
the total weight never grows, and a reported change means it strictly
shrank (unless a change had already been recorded). -/
theorem tryStepLoop_measure (N : Nat) (dir : Bool) (inferred : List TensorFact)
    (hinf : ∀ f ∈ inferred, f.shape.dims.length ≤ N) :
    ∀ (row : List Nat) (i : Nat) (edges : List Edge) (ch : Bool),
      EdgesBounded N edges →
      EdgesBounded N (tryStepLoop dir inferred row i edges ch).1 ∧
      measureEdges N (tryStepLoop dir inferred row i edges ch).1 ≤ measureEdges N edges ∧
      ((tryStepLoop dir inferred row i edges ch).2 = .ok true →
        ch = true ∨
          measureEdges N (tryStepLoop dir inferred row i edges ch).1 <
            measureEdges N edges)
  | [], i, edges, ch, hb => by
    refine ⟨hb, le_refl _, ?_⟩
    intro h
    have : ch = true := by
      have := RResult.ok.inj h
      exact this
    exact Or.inl this
  | j :: rest, i, edges, ch, hb => by
    simp only [tryStepLoop]
    split
    · exact ⟨hb, le_refl _, fun h => by simp at h⟩
    · next fact hfact =>
      have hfmem : fact ∈ inferred := by
        by_cases hdir : dir
        · rw [if_pos hdir] at hfact
          split at hfact
          · exact absurd hfact (by simp)
          · exact List.getElem?_mem hfact
        · rw [if_neg hdir] at hfact
          exact List.getElem?_mem hfact
      have hfN : fact.shape.dims.length ≤ N := hinf fact hfmem
      split
      · exact ⟨hb, le_refl _, fun h => by simp at h⟩
      · next e he =>
        have heN : e.fact.shape.dims.length ≤ N := hb e (List.getElem?_mem he)
        split
        · exact ⟨hb, le_refl _, fun h => by simp at h⟩
        · next unified hu =>
          have hle : factLe unified e.fact := (unify_le hu).2
          have huN : unified.shape.dims.length ≤ N := unify_rank_le N hu hfN heN
          split
          · exact tryStepLoop_measure N dir inferred hinf rest (i + 1) edges ch hb
          · next hne =>
            have hb' : EdgesBounded N (edges.set j { e with fact := unified }) :=
              edgesBounded_set hb huN
            have hset := measureEdges_set N edges j e { e with fact := unified } he
            have hlt : measureFact N unified < measureFact N e.fact :=
              (factLe_measure N unified e.fact hle huN heN).2 hne
            obtain ⟨ih1, ih2, _⟩ :=
              tryStepLoop_measure N dir inferred hinf rest (i + 1)
                (edges.set j { e with fact := unified }) true hb'
            refine ⟨ih1, ?_, ?_⟩
            · refine le_of_lt ?_
              calc measureEdges N (tryStepLoop dir inferred rest (i + 1)
                    (edges.set j { e with fact := unified }) true).1
                  ≤ measureEdges N (edges.set j { e with fact := unified }) := ih2
                _ < measureEdges N edges := by
                    simp only at hset
                    omega
            · intro _
              refine Or.inr ?_
              calc measureEdges N (tryStepLoop dir inferred rest (i + 1)
                    (edges.set j { e with fact := unified }) true).1
                  ≤ measureEdges N (edges.set j { e with fact := unified }) := ih2
                _ < measureEdges N edges := by
                    simp only at hset
                    omega

/-- Bounds and measure through `try_step`. -/
theorem try_step_measure (N : Nat) (a : Analyser)
    (hops : ∀ nd ∈ a.nodes, OpBounded N nd.op)
    (hb : EdgesBounded N a.edges) :
    EdgesBounded N (a.try_step).1.edges ∧
    measureEdges N (a.try_step).1.edges ≤ measureEdges N a.edges ∧
    ((a.try_step).2 = .ok true →
      measureEdges N (a.try_step).1.edges < measureEdges N a.edges) := by
  unfold Analyser.try_step
  split
  · exact ⟨hb, le_refl _, fun h => by simp at h⟩
  · next nodeIdx hidx =>
    split
    · exact ⟨hb, le_refl _, fun h => by simp at h⟩
    · next node hnode =>
      have hop : OpBounded N node.op := hops node (List.getElem?_mem hnode)
      split
      · exact ⟨hb, le_refl _, fun h => by simp at h⟩
      · next srcRow hsrc =>
        split
        · exact ⟨hb, le_refl _, fun h => by simp at h⟩
        · next sources hsources =>
          split
          · exact ⟨hb, le_refl _, fun h => by simp at h⟩
          · exact ⟨hb, le_refl _, fun h => by simp at h⟩
          · next inferred hinfres =>
            have hinf : ∀ f ∈ inferred, f.shape.dims.length ≤ N := by
              by_cases hdir : a.current_direction
              · rw [if_pos hdir] at hinfres
                exact (hop sources inferred).1 hinfres
              · rw [if_neg hdir] at hinfres
                exact (hop sources inferred).2 hinfres
            split
            · exact ⟨hb, le_refl _, fun h => by simp at h⟩
            · next tgtRow htgt =>
              split
              · next edges' r heq =>
                obtain ⟨m1, m2, m3⟩ :=
                  tryStepLoop_measure N a.current_direction inferred hinf tgtRow 0
                    a.edges false hb
                rw [heq] at m1 m2 m3
                refine ⟨m1, m2, ?_⟩
                intro h
                rcases m3 h with h2 | h2
                · exact absurd h2 (by simp)
                · exact h2

/-- Bounds and measure through `run_step`. -/
theorem run_step_measure (N : Nat) (a : Analyser)
    (hops : ∀ nd ∈ a.nodes, OpBounded N nd.op)
    (hb : EdgesBounded N a.edges) :
    EdgesBounded N (a.run_step).1.edges ∧
    measureEdges N (a.run_step).1.edges ≤ measureEdges N a.edges ∧
    ((a.run_step).2 = .ok true →
      measureEdges N (a.run_step).1.edges < measureEdges N a.edges) := by
  have hts := try_step_measure N a hops hb
  unfold Analyser.run_step
  split
  · next a' changed heq =>
    rw [heq] at hts
    split
    · exact ⟨hts.1, hts.2.1, fun h => hts.2.2 h⟩
    · exact ⟨hts.1, hts.2.1, fun h => hts.2.2 h⟩
  · next a' r hno hne =>
    rw [hne] at hts
    exact hts

/-- Bounds and measure through the step loop. -/
theorem stepsLoop_measure (N : Nat) : ∀ (n : Nat) (a : Analyser) (ch : Bool),
    (∀ nd ∈ a.nodes, OpBounded N nd.op) →
    EdgesBounded N a.edges →
    (stepsLoop n a ch).1.nodes = a.nodes ∧
    EdgesBounded N (stepsLoop n a ch).1.edges ∧
    measureEdges N (stepsLoop n a ch).1.edges ≤ measureEdges N a.edges ∧
    ((stepsLoop n a ch).2 = .ok true → ch = true ∨
      measureEdges N (stepsLoop n a ch).1.edges < measureEdges N a.edges)
  | 0, a, ch, _, hb => by
    refine ⟨rfl, hb, le_refl _, ?_⟩
    intro h
    exact Or.inl (RResult.ok.inj h)
  | n + 1, a, ch, hops, hb => by
    have hstep := run_step_measure N a hops hb
    have hstate := run_step_state a
    simp only [stepsLoop]
    split
    · next a' ch2 heq =>
      rw [heq] at hstep hstate
      have hops' : ∀ nd ∈ a'.nodes, OpBounded N nd.op := by
        intro nd hnd
        exact hops nd (by rw [← hstate.1]; exact hnd)
      obtain ⟨ih1, ih2, ih3, ih4⟩ := stepsLoop_measure N n a' (ch || ch2) hops' hstep.1
      refine ⟨by rw [ih1]; exact hstate.1, ih2, le_trans ih3 hstep.2.1, ?_⟩
      intro h
      rcases ih4 h with h2 | h2
      · rcases Bool.or_eq_true_iff.mp h2 with h3 | h3
        · exact Or.inl h3
        · subst h3
          exact Or.inr (lt_of_le_of_lt ih3 (hstep.2.2 rfl))
      · exact Or.inr (lt_of_lt_of_le h2 hstep.2.1)
    · next a' r hno heq =>
      rw [heq] at hstep
      refine ⟨?_, hstep.1, hstep.2.1, ?_⟩
      · rw [heq] at hstate
        exact hstate.1
      · intro h
        exact Or.inr (hstep.2.2 h)

/-- Bounds and measure through one sweep of `run_two_passes`: a sweep that
reports a change strictly shrinks the total weight of the edge facts. -/
theorem run_two_passes_measure (N : Nat) (a : Analyser)
    (hops : ∀ nd ∈ a.nodes, OpBounded N nd.op)
    (hb : EdgesBounded N a.edges) :
    (a.run_two_passes).1.nodes = a.nodes ∧
    EdgesBounded N (a.run_two_passes).1.edges ∧
    ((a.run_two_passes).2 = .ok true →
      measureEdges N (a.run_two_passes).1.edges < measureEdges N a.edges) := by
  have h1 := stepsLoop_measure N
    ({ a with current_step := 0 } : Analyser).plan.length
    ({ a with current_step := 0 }) false hops hb
  unfold Analyser.run_two_passes
  dsimp only
  split
  · next a1 c1 heq =>
    rw [heq] at h1
    have hops1 : ∀ nd ∈ a1.nodes, OpBounded N nd.op := by
      intro nd hnd
      exact hops nd (by rw [← h1.1]; exact hnd)
    have h2 := stepsLoop_measure N
      ({ a1 with current_step := 0 } : Analyser).plan.length
      ({ a1 with current_step := 0 }) c1 hops1 h1.2.1
    refine ⟨by rw [h2.1]; exact h1.1, h2.2.1, ?_⟩
    intro h
    rcases h2.2.2.2 h with h3 | h3
    · subst h3
      have hlt := h1.2.2.2 rfl
      rcases hlt with h4 | h4
      · exact absurd h4 (by simp)
      · exact lt_of_le_of_lt h2.2.2.1 h4
    · exact lt_of_lt_of_le h3 h1.2.2.1
  · next a1 r hno heq =>
    rw [heq] at h1
    refine ⟨h1.1, h1.2.1, ?_⟩
    intro h
    exact absurd h (hno true)

/-- With enough fuel for the initial weight, the sweep loop reaches a verdict. -/
theorem runFuel_terminates (N : Nat) : ∀ (fuel : Nat) (a : Analyser),
    (∀ nd ∈ a.nodes, OpBounded N nd.op) →
    EdgesBounded N a.edges →
    measureEdges N a.edges < fuel →
    runFuel fuel a ≠ none
  | 0, a, _, _, hlt => by omega
  | fuel + 1, a, hops, hb, hlt => by
    have hm := run_two_passes_measure N a hops hb
    show (match a.run_two_passes with
          | (a', .ok true) => runFuel fuel a'
          | (a', .ok false) => some (a', .ok ())
          | (a', .error) => some (a', .error)
          | (a', .panicked) => some (a', .panicked)) ≠ none
    rcases hrtp : a.run_two_passes with ⟨a', r⟩
    rw [hrtp] at hm
    cases r with
    | panicked => simp
    | error => simp
    | ok c =>
      cases c with
      | false => simp
      | true =>
        have hops' : ∀ nd ∈ a'.nodes, OpBounded N nd.op := by
          intro nd hnd
          exact hops nd (by rw [← hm.1]; exact hnd)
        have hlt' : measureEdges N a'.edges < fuel :=
          Nat.lt_of_lt_of_le (Nat.lt_of_lt_of_le (hm.2.2 rfl) (le_refl _))
            (Nat.lt_succ_iff.mp hlt)
        exact runFuel_terminates N fuel a' hops' hm.2.1 hlt'

/-- Claim C4 (amended): for a graph whose operators never infer a fact of rank
above some bound `N` and whose edge facts start within that bound, `run`
converges: with fuel one more than the total weight of the edge facts the
sweep loop reaches a verdict instead of running forever (without such a rank
bound the claim fails, monotonicity notwithstanding). -/
theorem C4_bounded_convergence (a : Analyser) (N : Nat)
    (hops : ∀ nd ∈ a.nodes, OpBounded N nd.op)
    (hb : EdgesBounded N a.edges) :
    a.run (measureEdges N a.edges + 1) ≠ none := by
  unfold Analyser.run
  exact runFuel_terminates N (measureEdges N a.edges + 1)
    ({ a with current_pass := 0 }) hops hb (Nat.lt_succ_self _)

/-- Witness for the amended claim C4: the one-node analyser, whose operator
infers nothing, satisfies the rank bound 0 and its run reaches a verdict. -/
theorem C4_witness :
    (∀ nd ∈ oneA.nodes, OpBounded 0 nd.op) ∧
    EdgesBounded 0 oneA.edges ∧
    oneA.run (measureEdges 0 oneA.edges + 1) ≠ none := by
  have hops : ∀ nd ∈ oneA.nodes, OpBounded 0 nd.op := by
    intro nd hnd
    rcases List.mem_cons.mp hnd with h | h
    · rw [h]
      show OpBounded 0 nullOp
      intro xs r
      constructor
      · intro h2
        simp [nullOp] at h2
      · intro h2
        simp [nullOp] at h2
    · simp at h
  have hb : EdgesBounded 0 oneA.edges := by
    intro e he
    rcases List.mem_cons.mp he with h | h
    · rw [h]
      decide
    · simp at h
  exact ⟨hops, hb, C4_bounded_convergence oneA 0 hops hb⟩
